import Mathlib

/-!
Verification development for the build/deploy command resolution subsystem of
the serverless sample tester (Go).  Strings are modelled as `List Char`;
line-oriented scanners become recursion over `List (List Char)`; fallible Go
functions return `Except`; Go runtime panics and process-environment reads are
made explicit.  Each definition is a shallow embedding of the correspondingly
named Go function.
-/

namespace SST

/-- Shorthand for turning a string literal into the `List Char` representation
used throughout this development. -/
def strL (s : String) : List Char := s.toList

/-- The backtick character (written via its code point). -/
def backtick : Char := Char.ofNat 96

/-- The opening brace character. -/
def lbrace : Char := Char.ofNat 123

/-- The closing brace character. -/
def rbrace : Char := Char.ofNat 125

/-- Character class `\w` of Go's regexp package: ASCII letters, digits and
underscore (code points are compared numerically to keep arithmetic
reasoning simple). -/
def isWordChar (c : Char) : Bool :=
  c.toNat = 95 || (48 ≤ c.toNat && c.toNat ≤ 57) || (97 ≤ c.toNat && c.toNat ≤ 122) ||
  (65 ≤ c.toNat && c.toNat ≤ 90)

/-- Character class `\s` of Go's regexp (RE2) package: `[\t\n\f\r ]`. -/
def regexSpace (c : Char) : Bool :=
  c.toNat = 32 || c.toNat = 9 || c.toNat = 10 || c.toNat = 13 || c.toNat = 12

/-- Character class `\S` of Go's regexp package. -/
def goNonSpace (c : Char) : Bool :=
  !(regexSpace c)

/-- Unicode white space as used by Go's `strings.TrimSpace`
(`unicode.IsSpace`). -/
def unicodeSpace (c : Char) : Bool :=
  c.toNat = 32 || (9 ≤ c.toNat && c.toNat ≤ 13) || c.toNat = 0x85 || c.toNat = 0xA0 ||
  c.toNat = 0x1680 || (0x2000 ≤ c.toNat && c.toNat ≤ 0x200A) || c.toNat = 0x2028 ||
  c.toNat = 0x2029 || c.toNat = 0x202F || c.toNat = 0x205F || c.toNat = 0x3000

/-- Go's `strings.TrimSpace`: drop Unicode white space from both ends. -/
def trimSpace (l : List Char) : List Char :=
  ((l.dropWhile unicodeSpace).reverse.dropWhile unicodeSpace).reverse

/-- Decides whether `pat` occurs at the start of `s`. -/
def isPrefixL : List Char → List Char → Bool
  | [], _ => true
  | _ :: _, [] => false
  | p :: ps, c :: cs => p = c && isPrefixL ps cs

/-- Go's `strings.Contains s pat`: `pat` occurs as a contiguous substring of
`s`. -/
def containsSub (s pat : List Char) : Bool :=
  match s with
  | [] => pat.isEmpty
  | _ :: rest => isPrefixL pat s || containsSub rest pat

/-- The sentinel code tag that must precede a runnable README code block
(Go constant `codeTag`). -/
def codeTag : List Char := strL "\x7bsst-run-unix\x7d"

/-- Go's `strings.Count line "`"`: number of backticks on the line. -/
def countBackticks (l : List Char) : Nat :=
  (l.filter (fun c => c = backtick)).length

/-- Matcher for the regexp `mdCodeFenceStartRegexp`, which is
`^\w*`(three backticks)`{3,}[^`]*$`: an optional leading word, a run of at
least three backticks, then any backtick-free text. -/
def mdCodeFenceStart (l : List Char) : Bool :=
  let r := l.dropWhile isWordChar
  let n := (r.takeWhile (fun c => c = backtick)).length
  3 ≤ n && (r.drop n).all (fun c => c ≠ backtick)

/-- Matcher for the dynamically built closing-fence regexp
`^\w*`(backtick run)`{k,}\w*$` where `k` is the backtick count of the opening
fence line: an optional leading word, at least `k` backticks, then an optional
trailing word. -/
def mdCodeFenceEnd (k : Nat) (l : List Char) : Bool :=
  let r := l.dropWhile isWordChar
  let n := (r.takeWhile (fun c => c = backtick)).length
  k ≤ n && (r.drop n).all isWordChar

/-- Errors of `extractCodeBlocks` (Go values `errEOFAfterCodeTag`,
`errCodeBlockStartNotFound`, `errCodeBlockNotClosed`). -/
inductive ExtractErr where
  | eofAfterCodeTag : ExtractErr
  | codeBlockStartNotFound : ExtractErr
  | codeBlockNotClosed : ExtractErr
deriving DecidableEq, Repr

/-- Inner loop of `extractCodeBlocks`: accumulate trimmed lines into the
current block until a line matching the closing-fence pattern (with backtick
count at least `k`) is found; `none` models reaching the end of the document
with the block still open.  Returns the block body and the remaining lines. -/
def scanBlock (k : Nat) : List (List Char) → Option (List (List Char) × List (List Char))
  | [] => none
  | l :: rest =>
    let t := trimSpace l
    if mdCodeFenceEnd k t then some ([], rest)
    else
      match scanBlock k rest with
      | none => none
      | some (body, r) => some (t :: body, r)

theorem scanBlock_rest_lt (k : Nat) :
    ∀ ls body r, scanBlock k ls = some (body, r) → r.length < ls.length := by
  intro ls
  induction ls with
  | nil => intro body r h; simp [scanBlock] at h
  | cons l rest ih =>
    intro body r h
    simp only [scanBlock] at h
    split at h
    · simp at h
      simp [← h.2]
    · split at h
      · simp at h
      · next body' r' heq =>
          simp at h
          obtain ⟨h1, h2⟩ := h
          subst h2
          exact Nat.lt_succ_of_lt (ih body' r' heq)

/-- Fuelled worker for `extractCodeBlocks`; the fuel only serves to make the
recursion structural and is irrelevant once it exceeds the number of lines. -/
def extractCodeBlocksF : Nat → List (List Char) → Except ExtractErr (List (List (List Char)))
  | 0, _ => .error .codeBlockNotClosed
  | _ + 1, [] => .ok []
  | fuel + 1, line :: rest =>
    if containsSub line codeTag then
      match rest with
      | [] => .error .eofAfterCodeTag
      | start :: rest2 =>
        if mdCodeFenceStart start then
          match scanBlock (countBackticks start) rest2 with
          | none => .error .codeBlockNotClosed
          | some (body, r) =>
            match extractCodeBlocksF fuel r with
            | .error e => .error e
            | .ok blocks => .ok (body :: blocks)
        else .error .codeBlockStartNotFound
    else extractCodeBlocksF fuel rest

/-- Go's `extractCodeBlocks`: scan the document line by line; a line containing
the code tag must be immediately followed by an opening fence, whose backtick
count determines the closing-fence pattern; the block body (with each line
trimmed) is accumulated until the closing fence. -/
def extractCodeBlocks (doc : List (List Char)) : Except ExtractErr (List (List (List Char))) :=
  extractCodeBlocksF (doc.length + 1) doc

theorem extractCodeBlocksF_irrel :
    ∀ f1 f2 doc, doc.length < f1 → doc.length < f2 →
      extractCodeBlocksF f1 doc = extractCodeBlocksF f2 doc := by
  intro f1
  induction f1 with
  | zero => intro f2 doc h1 h2; omega
  | succ f1 ih =>
    intro f2 doc h1 h2
    cases f2 with
    | zero => omega
    | succ f2 =>
      cases doc with
      | nil => rfl
      | cons line rest =>
        by_cases ht : containsSub line codeTag
        · cases rest with
          | nil => simp [extractCodeBlocksF, ht]
          | cons start rest2 =>
            by_cases hf : mdCodeFenceStart start
            · cases hsb : scanBlock (countBackticks start) rest2 with
              | none => simp [extractCodeBlocksF, ht, hf, hsb]
              | some p =>
                obtain ⟨body, r⟩ := p
                have hlt := scanBlock_rest_lt _ _ _ _ hsb
                simp only [List.length_cons] at h1 h2
                simp only [extractCodeBlocksF, ht, if_true, hf, hsb]
                rw [ih f2 r (by omega) (by omega)]
            · simp [extractCodeBlocksF, ht, hf]
        · simp only [List.length_cons] at h1 h2
          simp only [extractCodeBlocksF, ht, if_false]
          exact ih f2 rest (by omega) (by omega)

theorem extractCodeBlocksF_eq (fuel : Nat) (doc : List (List Char))
    (h : doc.length < fuel) : extractCodeBlocksF fuel doc = extractCodeBlocks doc :=
  extractCodeBlocksF_irrel fuel (doc.length + 1) doc h (Nat.lt_succ_self _)

/-! ### The registry-URL regexp `gcr.io/.+/\S+` and Go `ReplaceAllString` -/

/-- Anchor test for the regexp `gcrURLRegexp`: the string starts with the
literal characters `g`, `c`, `r`, any character other than a newline (the
unescaped dot), `i`, `o`, `/`. -/
def isAnchor : List Char → Bool
  | c0 :: c1 :: c2 :: c3 :: c4 :: c5 :: c6 :: _ =>
    c0 = 'g' && c1 = 'c' && c2 = 'r' && c3 ≠ '\n' && c4 = 'i' && c5 = 'o' && c6 = '/'
  | _ => false

/-- Does the string begin with a slash immediately followed by a `\S`
character?  Such a head can serve as the final `/\S+` of a match. -/
def eligHead : List Char → Bool
  | c0 :: c1 :: _ => c0 = '/' && goNonSpace c1
  | _ => false

/-- Completion search for `.+/\S+` after the anchor: find the rightmost `/` at
position at least 1 that is immediately followed by a `\S` character, with only
non-newline characters before it (greedy `.+`, which cannot cross a newline).
Returns the text consumed by `.+` and the text after that slash. -/
def findComp : List Char → Option (List Char × List Char)
  | [] => none
  | c :: rest =>
    if c = '\n' then none
    else
      match findComp rest with
      | some (a, b) => some (c :: a, b)
      | none => if eligHead rest then some ([c], rest.tail) else none

/-- One leftmost-first match attempt of `gcr.io/.+/\S+` at the head of `s`:
on success returns the matched text and the remainder of the string. -/
def matchFrom (s : List Char) : Option (List Char × List Char) :=
  if isAnchor s then
    match findComp (s.drop 7) with
    | some (a, b) =>
      some (s.take 7 ++ a ++ '/' :: b.takeWhile goNonSpace, b.dropWhile goNonSpace)
    | none => none
  else none

theorem findComp_eq :
    ∀ r u v, findComp r = some (u, v) → r = u ++ '/' :: v ∧ u ≠ [] ∧
      ∃ v0 vs, v = v0 :: vs ∧ goNonSpace v0 = true := by
  intro r
  induction r with
  | nil => intro u v h; simp [findComp] at h
  | cons c rest ih =>
    intro u v h
    by_cases hnl : c = '\n'
    · simp [findComp, hnl] at h
    · simp only [findComp, if_neg hnl] at h
      cases hfc : findComp rest with
      | some p =>
        obtain ⟨a, b⟩ := p
        simp only [hfc] at h
        simp at h
        obtain ⟨h1, h2⟩ := h
        obtain ⟨hr, hne, hv⟩ := ih a b hfc
        subst h2
        refine ⟨?_, ?_, hv⟩
        · rw [← h1, hr]
          simp
        · rw [← h1]
          simp
      | none =>
        simp only [hfc] at h
        by_cases he : eligHead rest = true
        · rw [if_pos he] at h
          simp at h
          obtain ⟨h1, h2⟩ := h
          cases rest with
          | nil => simp [eligHead] at he
          | cons r0 rtail =>
            cases rtail with
            | nil => simp [eligHead] at he
            | cons r1 rtail2 =>
              simp only [eligHead, Bool.and_eq_true, decide_eq_true_eq] at he
              obtain ⟨hr0, hr1⟩ := he
              subst hr0
              refine ⟨?_, ?_, ?_⟩
              · rw [← h1, ← h2]
                simp
              · rw [← h1]
                simp
              · exact ⟨r1, rtail2, by rw [← h2]; rfl, hr1⟩
        · rw [if_neg he] at h
          simp at h

theorem isAnchor_shape :
    ∀ s, isAnchor s = true →
      ∃ c tail, s = 'g' :: 'c' :: 'r' :: c :: 'i' :: 'o' :: '/' :: tail ∧ c ≠ '\n' := by
  intro s h
  unfold isAnchor at h
  split at h
  · next c0 c1 c2 c3 c4 c5 c6 tail =>
      simp only [Bool.and_eq_true, decide_eq_true_eq] at h
      obtain ⟨⟨⟨⟨⟨⟨h0, h1⟩, h2⟩, h3⟩, h4⟩, h5⟩, h6⟩ := h
      subst h0; subst h1; subst h2; subst h4; subst h5; subst h6
      exact ⟨c3, tail, rfl, by simpa using h3⟩
  · simp at h

theorem matchFrom_rem_lt :
    ∀ s m rem, matchFrom s = some (m, rem) → rem.length < s.length := by
  intro s m rem h
  simp only [matchFrom] at h
  split at h
  · next hA =>
    split at h
    · next a b heq =>
        simp at h
        obtain ⟨h1, h2⟩ := h
        subst h2
        obtain ⟨hr, hne, hv⟩ := findComp_eq _ _ _ heq
        have hlen : (s.drop 7).length = a.length + 1 + b.length := by
          rw [hr]
          simp only [List.length_append, List.length_cons]
          omega
        have hb : (b.dropWhile goNonSpace).length ≤ b.length :=
          (List.dropWhile_suffix goNonSpace).sublist.length_le
        have hs7 : (s.drop 7).length = s.length - 7 := by simp
        obtain ⟨c0, tail, hs, hcnl⟩ := isAnchor_shape s hA
        have h7 : 7 ≤ s.length := by rw [hs]; simp
        have hane : 1 ≤ a.length := by
          cases a with
          | nil => exact absurd rfl hne
          | cons x xs => simp
        omega
    · simp at h
  · simp at h

/-- Fuelled worker for `replaceAllGCR`; the fuel is irrelevant once it
exceeds the length of the string. -/
def replaceAllGCRF : Nat → List Char → List Char → List Char
  | 0, _, _ => []
  | _ + 1, [], _ => []
  | fuel + 1, c :: rest, url =>
    match matchFrom (c :: rest) with
    | some (_, rem) => url ++ replaceAllGCRF fuel rem url
    | none => c :: replaceAllGCRF fuel rest url

/-- Go's `gcrURLRegexp.ReplaceAllString line gcrURL`: repeatedly find the
leftmost match of `gcr.io/.+/\S+` and replace it with `url`.  (The `$`
expansion Go applies inside a replacement string is not modelled; all
theorems about this definition use `$`-free replacement strings.) -/
def replaceAllGCR (s url : List Char) : List Char :=
  replaceAllGCRF (s.length + 1) s url

theorem replaceAllGCRF_irrel :
    ∀ f1 f2 s url, s.length < f1 → s.length < f2 →
      replaceAllGCRF f1 s url = replaceAllGCRF f2 s url := by
  intro f1
  induction f1 with
  | zero => intro f2 s url h1 h2; omega
  | succ f1 ih =>
    intro f2 s url h1 h2
    cases f2 with
    | zero => omega
    | succ f2 =>
      cases s with
      | nil => rfl
      | cons c rest =>
        cases hm : matchFrom (c :: rest) with
        | none =>
          simp only [List.length_cons] at h1 h2
          simp only [replaceAllGCRF, hm]
          rw [ih f2 rest url (by omega) (by omega)]
        | some p =>
          obtain ⟨m, rem⟩ := p
          have hlt := matchFrom_rem_lt _ _ _ hm
          simp only [List.length_cons] at hlt h1 h2
          simp only [replaceAllGCRF, hm]
          rw [ih f2 rem url (by omega) (by omega)]

theorem replaceAllGCRF_eq (fuel : Nat) (s url : List Char) (h : s.length < fuel) :
    replaceAllGCRF fuel s url = replaceAllGCR s url :=
  replaceAllGCRF_irrel fuel (s.length + 1) s url h (Nat.lt_succ_self _)

/-! ### Environment-variable expansion (Go `os.Expand` / `os.ExpandEnv`) -/

/-- A process environment: an association list from variable names to values
(`os.Getenv` returns the empty string for unset variables). -/
abbrev Env : Type := List (List Char × List Char)

/-- Lookup in the process environment; unset variables yield the empty
string. -/
def envLookup (env : Env) (name : List Char) : List Char :=
  match List.find? (fun p => p.1 == name) env with
  | some p => p.2
  | none => []

/-- Go `os.isShellSpecialVar`. -/
def isShellSpecialVar (c : Char) : Bool :=
  c = '*' || c = '#' || c = '$' || c = '@' || c = '!' || c = '?' || c = '-' ||
  (('0' ≤ c) && (c ≤ '9'))

/-- Go `os.isAlphaNum`. -/
def isAlphaNumGo (c : Char) : Bool :=
  c = '_' || (('0' ≤ c) && (c ≤ '9')) || (('a' ≤ c) && (c ≤ 'z')) || (('A' ≤ c) && (c ≤ 'Z'))

/-- Brace scan of Go `os.getShellName`: find the closing brace in the text
following `${`; `none` models an unclosed reference. -/
def braceScan (rest : List Char) : (List Char × Nat) :=
  match (rest.takeWhile (fun c => c ≠ rbrace)), (rest.dropWhile (fun c => c ≠ rbrace)) with
  | _, [] => ([], 1)
  | name, _ :: _ => if name = [] then ([], 2) else (name, name.length + 2)

/-- Go `os.getShellName` on the text following a `$`: returns the referenced
name and the number of characters consumed. -/
def getShellName : List Char → (List Char × Nat)
  | [] => ([], 0)
  | c :: rest =>
    if c = lbrace then
      match rest with
      | r1 :: r2 :: _ =>
        if isShellSpecialVar r1 && r2 = rbrace then ([r1], 3) else braceScan rest
      | _ => braceScan rest
    else if isShellSpecialVar c then ([c], 1)
    else
      let nm := (c :: rest).takeWhile isAlphaNumGo
      (nm, nm.length)

/-- Fuelled worker for `expandEnv`; the fuel is irrelevant once it exceeds
the length of the string. -/
def expandEnvF (env : Env) : Nat → List Char → List Char
  | 0, _ => []
  | _ + 1, [] => []
  | fuel + 1, c :: rest =>
    if c = '$' ∧ rest ≠ [] then
      match getShellName rest with
      | (name, w) =>
        (if name = [] ∧ 0 < w then [] else if name = [] then ['$'] else envLookup env name) ++
          expandEnvF env fuel (rest.drop w)
    else c :: expandEnvF env fuel rest

/-- Go `os.ExpandEnv`: expand `$NAME` and `${NAME}` references against the
process environment. -/
def expandEnv (env : Env) (l : List Char) : List Char :=
  expandEnvF env (l.length + 1) l

/-! ### Service-name substitution (`replaceServiceName`, argument-list form) -/

/-- Result of the first scanning loop of `replaceServiceName`: either an
argument equal to the sentinel expansion was replaced, or a `run` keyword was
found (stopping the scan), or neither occurred. -/
inductive Phase1 where
  | replaced (args : List (List Char)) : Phase1
  | foundRun : Phase1
  | noRun : Phase1
deriving DecidableEq

/-- First loop of `replaceServiceName`: scan the arguments in order; an
argument equal to the sentinel is replaced by the service name (stopping); a
`run` argument stops the scan, marking the command as a Cloud Run command. -/
def sentinelScan (sentinel serviceName : List Char) : List (List Char) → Phase1
  | [] => .noRun
  | a :: rest =>
    if a = sentinel then .replaced (serviceName :: rest)
    else if a = strL "run" then .foundRun
    else
      match sentinelScan sentinel serviceName rest with
      | .replaced r => .replaced (a :: r)
      | p => p

/-- Second loop of `replaceServiceName`: find a `deploy` or `update` keyword
that is not the last argument and replace the argument following it. -/
def verbScan (serviceName : List Char) : List (List Char) → Option (List (List Char))
  | a :: b :: rest =>
    if a = strL "deploy" || a = strL "update" then some (a :: serviceName :: rest)
    else
      match verbScan serviceName (b :: rest) with
      | some r => some (a :: r)
      | none => none
  | _ => none

/-- Third loop of `replaceServiceName` (the failsafe): replace the last
argument that does not contain `--`. -/
def failsafeScan (serviceName : List Char) : List (List Char) → Option (List (List Char))
  | [] => none
  | a :: rest =>
    match failsafeScan serviceName rest with
    | some r => some (a :: r)
    | none => if containsSub a (strL "--") then none else some (serviceName :: rest)

/-- Go `replaceServiceName(name, args, serviceName)` (the three-argument
variant): if the program name contains `gcloud`, try in order the sentinel
rule (an argument equal to `os.ExpandEnv "$CLOUD_RUN_SERVICE_NAME"`, scanning
no further than the first `run` argument), then — only if a `run` argument was
found — the verb rule (`deploy`/`update`) and the failsafe rule (last
argument not containing `--`).  The Go function mutates `args` and always
returns a nil error; the model returns the resulting argument list. -/
def replaceServiceName (name : List Char) (args : List (List Char)) (env : Env)
    (serviceName : List Char) : List (List Char) :=
  if ¬ containsSub name (strL "gcloud") then args
  else
    let sentinel := expandEnv env (strL "$CLOUD_RUN_SERVICE_NAME")
    match sentinelScan sentinel serviceName args with
    | .replaced r => r
    | .noRun => args
    | .foundRun =>
      match verbScan serviceName args with
      | some r => r
      | none =>
        match failsafeScan serviceName args with
        | some r => r
        | none => args

/-! ### Command assembly (`codeBlock.toCommands`) -/

/-- An `exec.Cmd`: a program name and its arguments. -/
structure Cmd where
  name : List Char
  args : List (List Char)
deriving DecidableEq, Repr

/-- Go `util.GcloudCommonFlags`. -/
def gcloudCommonFlags : List (List Char) := [strL "--quiet"]

/-- Errors and runtime faults of `codeBlock.toCommands`: the
`errCodeBlockEndAfterLineCont` error (which carries the dump of the whole code
block), and the index-out-of-range panic that evaluating `line[len(line)-1]`
on an empty line would raise. -/
inductive CmdErr where
  | endAfterLineCont (dump : List (List Char)) : CmdErr
  | panicEmptyLine : CmdErr
deriving DecidableEq, Repr

/-- Result of the line-continuation loop in `toCommands`. -/
inductive ContRes where
  | done (line : List Char) (rest : List (List Char)) : ContRes
  | blockEnd : ContRes
  | panicEmpty : ContRes
deriving DecidableEq, Repr

/-- The inner continuation loop of `toCommands`: while the line ends with the
bash continuation backslash, strip it and append the next raw line of the
block; reaching the end of the block is the `blockEnd` error, while a blank
next line breaks out of the loop silently.  Evaluating the loop condition on
an empty line models Go's index-out-of-range panic. -/
def contJoin (line : List Char) (rest : List (List Char)) : ContRes :=
  if line = [] then .panicEmpty
  else if line.getLast? = some '\\' then
    match rest with
    | [] => .blockEnd
    | l :: rest' =>
      if l = [] then .done line.dropLast rest'
      else contJoin (line.dropLast ++ l) rest'
  else .done line rest

theorem contJoin_rest_le :
    ∀ rest line j r, contJoin line rest = .done j r → r.length ≤ rest.length := by
  intro rest
  induction rest with
  | nil =>
    intro line j r h
    unfold contJoin at h
    split at h
    · simp at h
    · split at h
      · simp at h
      · cases h
        exact Nat.le_refl _
  | cons l rest' ih =>
    intro line j r h
    unfold contJoin at h
    split at h
    · simp at h
    · split at h
      · have h' : (if l = [] then ContRes.done line.dropLast rest'
            else contJoin (line.dropLast ++ l) rest') = ContRes.done j r := h
        clear h
        split at h'
        · cases h'
          exact Nat.le_succ_of_le (Nat.le_refl _)
        · exact Nat.le_succ_of_le (ih _ _ _ h')
      · cases h
        exact Nat.le_refl _

/-- Go `strings.Split line " "`: split on every single space; adjacent spaces
produce empty fields, and the result is never the empty list. -/
def splitOnSpace : List Char → List (List Char)
  | [] => [[]]
  | c :: rest =>
    if c = ' ' then [] :: splitOnSpace rest
    else
      match splitOnSpace rest with
      | [] => [[c]]
      | h :: t => (c :: h) :: t

/-- Per-line command construction in `toCommands`: expand environment
variables, replace registry URLs, split on spaces, replace the Cloud Run
service name in the argument list, and prepend the common gcloud flags when
the program is `gcloud`. -/
def buildCmd (line : List Char) (env : Env) (serviceName gcrURL : List Char) : Cmd :=
  let l1 := expandEnv env line
  let l2 := replaceAllGCR l1 gcrURL
  let sp := splitOnSpace l2
  let nm := sp.headD []
  let args := replaceServiceName nm sp.tail env serviceName
  if nm = strL "gcloud" then ⟨strL "gcloud", gcloudCommonFlags ++ args⟩
  else ⟨nm, args⟩

/-- Fuelled worker for `toCommands`; `cb0` is the whole code block, kept for
the error dump, and the fuel is irrelevant once it exceeds the number of
remaining lines. -/
def toCommandsAuxF (cb0 : List (List Char)) (serviceName gcrURL : List Char) (env : Env) :
    Nat → List (List Char) → Except CmdErr (List Cmd)
  | 0, _ => .error .panicEmptyLine
  | _ + 1, [] => .ok []
  | fuel + 1, line :: rest =>
    if line = [] then toCommandsAuxF cb0 serviceName gcrURL env fuel rest
    else
      match contJoin line rest with
      | .panicEmpty => .error .panicEmptyLine
      | .blockEnd => .error (.endAfterLineCont cb0)
      | .done joined rest' =>
        match toCommandsAuxF cb0 serviceName gcrURL env fuel rest' with
        | .error e => .error e
        | .ok cmds => .ok (buildCmd joined env serviceName gcrURL :: cmds)

/-- Go `codeBlock.toCommands`: extract the terminal commands of a code block,
handling blank-line skipping, line continuations, environment expansion and
the two substitutions. -/
def toCommands (cb : List (List Char)) (serviceName gcrURL : List Char) (env : Env) :
    Except CmdErr (List Cmd) :=
  toCommandsAuxF cb serviceName gcrURL env (cb.length + 1) cb

theorem toCommandsAuxF_irrel (cb0 : List (List Char)) (serviceName gcrURL : List Char)
    (env : Env) :
    ∀ f1 f2 ls, ls.length < f1 → ls.length < f2 →
      toCommandsAuxF cb0 serviceName gcrURL env f1 ls =
        toCommandsAuxF cb0 serviceName gcrURL env f2 ls := by
  intro f1
  induction f1 with
  | zero => intro f2 ls h1 h2; omega
  | succ f1 ih =>
    intro f2 ls h1 h2
    cases f2 with
    | zero => omega
    | succ f2 =>
      cases ls with
      | nil => rfl
      | cons line rest =>
        simp only [List.length_cons] at h1 h2
        by_cases hb : line = []
        · simp only [toCommandsAuxF, hb, if_true]
          exact ih f2 rest (by omega) (by omega)
        · cases hcj : contJoin line rest with
          | panicEmpty => simp [toCommandsAuxF, hb, hcj]
          | blockEnd => simp [toCommandsAuxF, hb, hcj]
          | done joined rest' =>
            have hle := contJoin_rest_le _ _ _ _ hcj
            simp only [toCommandsAuxF, hb, if_false, hcj]
            rw [ih f2 rest' (by omega) (by omega)]

/-! ### README lifecycle extraction (`extractLifecycle`) -/

/-- Errors of the README resolver (`extractLifecycle`): the non-fatal
`errNoReadmeCodeBlocksFound` sentinel, wrapped extraction errors and wrapped
command-assembly errors. -/
inductive ReadmeErr where
  | noBlocks : ReadmeErr
  | extractErr (e : ExtractErr) : ReadmeErr
  | cmdErr (e : CmdErr) : ReadmeErr
deriving DecidableEq, Repr

/-- Sequential `toCommands` over the extracted blocks, concatenating the
results (the loop body of `extractLifecycle`). -/
def blocksToLifecycle (serviceName gcrURL : List Char) (env : Env) :
    List (List (List Char)) → Except CmdErr (List Cmd)
  | [] => .ok []
  | b :: bs =>
    match toCommands b serviceName gcrURL env with
    | .error e => .error e
    | .ok cmds =>
      match blocksToLifecycle serviceName gcrURL env bs with
      | .error e => .error e
      | .ok rest => .ok (cmds ++ rest)

/-- Go `extractLifecycle`: extract the tagged code blocks of the document and
assemble all their commands, in order, into a Lifecycle; zero tagged blocks is
the non-fatal `errNoReadmeCodeBlocksFound` condition. -/
def extractLifecycle (doc : List (List Char)) (serviceName gcrURL : List Char) (env : Env) :
    Except ReadmeErr (List Cmd) :=
  match extractCodeBlocks doc with
  | .error e => .error (.extractErr e)
  | .ok blocks =>
    if blocks.length = 0 then .error .noBlocks
    else
      match blocksToLifecycle serviceName gcrURL env blocks with
      | .error e => .error (.cmdErr e)
      | .ok l => .ok l

/-! ### Default lifecycles and the `NewLifecycle` orchestrator -/

/-- Go `buildDefaultLifecycle`: `gcloud builds submit --tag=<url>` followed by
`gcloud run deploy <name> --image=<url> --platform=managed`, each with the
common gcloud flags. -/
def buildDefaultLifecycle (serviceName gcrURL : List Char) : List Cmd :=
  [⟨strL "gcloud", gcloudCommonFlags ++ [strL "builds", strL "submit", strL "--tag=" ++ gcrURL]⟩,
   ⟨strL "gcloud", gcloudCommonFlags ++ [strL "run", strL "deploy", serviceName,
     strL "--image=" ++ gcrURL, strL "--platform=managed"]⟩]

/-- Go `buildDefaultJavaLifecycle`: like `buildDefaultLifecycle` but with the
build step replaced by the jib-maven-plugin invocation. -/
def buildDefaultJavaLifecycle (serviceName gcrURL : List Char) : List Cmd :=
  match buildDefaultLifecycle serviceName gcrURL with
  | [] => []
  | _ :: rest =>
    ⟨strL "mvn", [strL "compile", strL "com.google.cloud.tools:jib-maven-plugin:2.0.0:build",
      strL "-Dimage=" ++ gcrURL]⟩ :: rest

/-- Outcomes of the side effects performed by `getCloudBuildConfigLifecycle`;
each field abstracts one fallible call of the Go function, in program order. -/
structure CBWorld where
  readOk : Bool
  unmarshalOk : Bool
  steps : List (List Char × List (List Char))
  marshalOk : Bool
  tempFileName : Option (List Char)
  writeOk : Bool
  closeOk : Bool

/-- Errors of `getCloudBuildConfigLifecycle`, one per fallible call. -/
inductive CBCfgErr where
  | readErr : CBCfgErr
  | unmarshalErr : CBCfgErr
  | marshalErr : CBCfgErr
  | tempFileErr : CBCfgErr
  | writeErr : CBCfgErr
  | closeErr : CBCfgErr
deriving DecidableEq, Repr

/-- Result of `getCloudBuildConfigLifecycle`: the produced lifecycle, the
cleanup callback (modelled by the name of the temporary file it removes), the
error, and whether the temporary file was actually created. -/
structure CBResult where
  lifecycle : Option (List Cmd)
  cleanup : Option (List Char)
  err : Option CBCfgErr
  created : Bool
deriving DecidableEq, Repr

/-- Go `substitutionsString`: the run-region substitution followed by the
user-provided substitutions, comma-joined as `KEY=VALUE` pairs. -/
def substitutionsString (m : List (List Char × List Char)) (runRegion : List Char) : List Char :=
  let subs := (strL "_SST_RUN_REGION=" ++ runRegion) ::
    m.map (fun p => p.1 ++ '=' :: p.2)
  (subs.intersperse (strL ",")).flatten

/-- Go `buildCloudBuildConfigLifecycle`: a single `gcloud builds submit`
command against the rewritten config file with a computed substitutions
flag. -/
def buildCloudBuildConfigLifecycle (buildConfigFilename runRegion : List Char)
    (substitutions : List (List Char × List Char)) : List Cmd :=
  [⟨strL "gcloud", gcloudCommonFlags ++ [strL "builds", strL "submit",
    strL "--config=" ++ buildConfigFilename,
    strL "--substitutions=" ++ substitutionsString substitutions runRegion]⟩]

/-- Step rewriting of `getCloudBuildConfigLifecycle`: each step's arguments
get the registry-URL substitution and then the service-name substitution
(keyed on the step's `name` field). -/
def rewriteSteps (steps : List (List Char × List (List Char))) (serviceName gcrURL : List Char)
    (env : Env) : List (List Char × List (List Char)) :=
  steps.map (fun st =>
    let args := st.2.map (fun a => replaceAllGCR a gcrURL)
    (st.1, replaceServiceName st.1 args env serviceName))

/-- Go `getCloudBuildConfigLifecycle`: read and parse the Cloud Build config,
rewrite the step arguments, marshal the result, write it to a fresh temporary
file, and return a single-command lifecycle together with a cleanup callback
that removes the temporary file.  The callback is defined as soon as the
temporary file exists and is returned on every subsequent path, error paths
included. -/
def getCloudBuildConfigLifecycle (w : CBWorld) (serviceName gcrURL runRegion : List Char)
    (substitutions : List (List Char × List Char)) (env : Env) : CBResult :=
  if ¬ w.readOk then ⟨none, none, some .readErr, false⟩
  else if ¬ w.unmarshalOk then ⟨none, none, some .unmarshalErr, false⟩
  else
    let _ := rewriteSteps w.steps serviceName gcrURL env
    if ¬ w.marshalOk then ⟨none, none, some .marshalErr, false⟩
    else
      match w.tempFileName with
      | none => ⟨none, none, some .tempFileErr, false⟩
      | some nm =>
        if ¬ w.writeOk then ⟨none, some nm, some .writeErr, true⟩
        else if ¬ w.closeOk then ⟨none, some nm, some .closeErr, true⟩
        else ⟨some (buildCloudBuildConfigLifecycle nm runRegion substitutions),
              some nm, none, true⟩

/-- The file-system and README state consulted by `NewLifecycle`, together
with the outcome world of the build-config resolver. -/
structure ResWorld where
  cloudBuildConfigExists : Bool
  cbWorld : CBWorld
  readmeExists : Bool
  readmeDoc : List (List Char)
  pomExists : Bool
  dockerfileExists : Bool

/-- Errors surfaced by `NewLifecycle`. -/
inductive NLErr where
  | cloudBuildConfig (e : CBCfgErr) : NLErr
  | readme (e : ReadmeErr) : NLErr
deriving DecidableEq, Repr

/-- The static-default branch of `NewLifecycle`: java defaults when a
`pom.xml` exists and no `Dockerfile` does, generic defaults otherwise. -/
def defaultLifecycleFor (w : ResWorld) (serviceName gcrURL : List Char) : List Cmd :=
  if w.pomExists && !w.dockerfileExists then buildDefaultJavaLifecycle serviceName gcrURL
  else buildDefaultLifecycle serviceName gcrURL

/-- Go `NewLifecycle`: try the Cloud Build config file, then the README, then
static defaults.  A build-config error aborts; a README error aborts unless it
is `errNoReadmeCodeBlocksFound`; the defaults never fail.  The second
component of a success is the cleanup callback (only the build-config source
produces one). -/
def NewLifecycle (w : ResWorld) (serviceName gcrURL runRegion : List Char)
    (substitutions : List (List Char × List Char)) (env : Env) :
    Except NLErr (List Cmd × Option (List Char)) :=
  if w.cloudBuildConfigExists then
    let r := getCloudBuildConfigLifecycle w.cbWorld serviceName gcrURL runRegion substitutions env
    match r.err with
    | none => .ok (r.lifecycle.getD [], r.cleanup)
    | some e => .error (.cloudBuildConfig e)
  else if w.readmeExists then
    match extractLifecycle w.readmeDoc serviceName gcrURL env with
    | .ok l => .ok (l, none)
    | .error .noBlocks => .ok (defaultLifecycleFor w serviceName gcrURL, none)
    | .error e => .error (.readme e)
  else .ok (defaultLifecycleFor w serviceName gcrURL, none)

/-! ### The earlier `parseREADME` variant that trims and joins lines inline -/

/-- Word-boundary matcher for Go's regexps `\bgcloud\b` and `\brun\b` (for
patterns that start and end with word characters): the pattern occurs in `s`
with no word character immediately before or after it. -/
def matchWordAt (pat s : List Char) : Bool :=
  isPrefixL pat s &&
    (match s.drop pat.length with
     | [] => true
     | c :: _ => !(isWordChar c))

/-- Worker for `containsWord`, carrying the previous character. -/
def containsWordAux (pat : List Char) (prev : Option Char) : List Char → Bool
  | [] => false
  | c :: rest =>
    ((match prev with | none => true | some p => !(isWordChar p)) &&
      matchWordAt pat (c :: rest)) ||
    containsWordAux pat (some c) rest

/-- Decides `regexp.MatchString "\b<pat>\b" s` for a word-only pattern. -/
def containsWord (pat s : List Char) : Bool :=
  containsWordAux pat none s

/-- Go `replaceServiceName(command, serviceName)` (the two-argument string
variant used by the inline `parseREADME`): if the command matches `\bgcloud\b`
and `\brun\b`, split it on spaces, replace the last field not containing `--`
with the service name, and re-join. -/
def replaceServiceNameStr (command serviceName : List Char) : List Char :=
  if ¬ (containsWord (strL "gcloud") command && containsWord (strL "run") command) then command
  else
    let sp := splitOnSpace command
    let sp' :=
      match failsafeScan serviceName sp with
      | some r => r
      | none => sp
    ((sp'.intersperse (strL " ")).flatten)

/-- Errors and runtime faults of the inline `parseREADME` variant. -/
inductive InlineErr where
  | startNotFound : InlineErr
  | eofAfterTag : InlineErr
  | notClosed : InlineErr
  | noCommands : InlineErr
  | panicIndexOutOfRange : InlineErr
deriving DecidableEq, Repr

/-- Continuation loop of the inline `parseREADME` variant: while the trimmed
line ends in a backslash, strip it and append the next scanned line (trimmed);
the scanner's success is not checked, so at end of input the empty string is
appended and the loop keeps stripping trailing backslashes.  Evaluating the
loop condition `line[len(line)-1]` on an empty line is Go's index-out-of-range
panic. -/
def contJoinInlineF : Nat → List Char → List (List Char) →
    Except InlineErr (List Char × List (List Char))
  | 0, _, _ => .error .panicIndexOutOfRange
  | fuel + 1, line, rest =>
    if line = [] then .error .panicIndexOutOfRange
    else if line.getLast? = some '\\' then
      match rest with
      | [] => contJoinInlineF fuel line.dropLast []
      | l :: rest' => contJoinInlineF fuel (line.dropLast ++ trimSpace l) rest'
    else .ok (line, rest)

/-- Fuel bound for `contJoinInlineF`: the loop runs at most once per character
of the current line and of every remaining line. -/
def contFuel (line : List Char) (rest : List (List Char)) : Nat :=
  line.length + rest.length + (rest.map List.length).sum + 1

/-- Entry point modelling the inline continuation loop. -/
def contJoinInline (line : List Char) (rest : List (List Char)) :
    Except InlineErr (List Char × List (List Char)) :=
  contJoinInlineF (contFuel line rest) line rest

/-- Command construction of the inline `parseREADME` variant: expand the
environment, apply `replaceGCRURL` and the string-level `replaceServiceName`,
split on spaces, and route `gcloud`-containing lines through the common-flag
builder. -/
def buildCmdInline (line : List Char) (env : Env) (serviceName gcrURL : List Char) : Cmd :=
  let l1 := expandEnv env line
  let l2 := replaceAllGCR l1 gcrURL
  let l3 := replaceServiceNameStr l2 serviceName
  let sp := splitOnSpace l3
  if containsSub l3 (strL "gcloud") then ⟨strL "gcloud", gcloudCommonFlags ++ sp.tail⟩
  else ⟨sp.headD [], sp.tail⟩

theorem trimSpace_length_le (l : List Char) : (trimSpace l).length ≤ l.length := by
  unfold trimSpace
  have h1 : (l.dropWhile unicodeSpace).length ≤ l.length :=
    (List.dropWhile_suffix unicodeSpace).sublist.length_le
  have h2 : (((l.dropWhile unicodeSpace).reverse.dropWhile unicodeSpace)).length ≤
      (l.dropWhile unicodeSpace).reverse.length :=
    (List.dropWhile_suffix unicodeSpace).sublist.length_le
  simp only [List.length_reverse] at h2 ⊢
  omega

theorem contJoinInlineF_rest_le :
    ∀ fuel line rest j r, contJoinInlineF fuel line rest = .ok (j, r) →
      r.length ≤ rest.length := by
  intro fuel
  induction fuel with
  | zero => intro line rest j r h; simp [contJoinInlineF] at h
  | succ fuel ih =>
    intro line rest j r h
    simp only [contJoinInlineF] at h
    split at h
    · simp at h
    · split at h
      · cases rest with
        | nil =>
          have := ih _ _ _ _ h
          simpa using this
        | cons l rest' =>
          have := ih _ _ _ _ h
          exact Nat.le_succ_of_le this
      · simp at h
        simp [← h.2]

theorem contJoinInline_rest_le :
    ∀ line rest j r, contJoinInline line rest = .ok (j, r) → r.length ≤ rest.length := by
  intro line rest j r h
  exact contJoinInlineF_rest_le _ _ _ _ _ h

/-- Block-scanning loop of the inline `parseREADME` variant: consume lines
until one contains a triple backtick; other lines are trimmed, continuation-
joined and turned into commands.  Returns the commands of the block and the
remaining input; reaching end of input is the `code block not closed`
error. -/
def blockLoopInlineF (serviceName gcrURL : List Char) (env : Env) :
    Nat → List (List Char) → Except InlineErr (List Cmd × List (List Char))
  | 0, _ => .error .notClosed
  | _ + 1, [] => .error .notClosed
  | fuel + 1, l :: rest =>
    if containsSub l (strL "```") then .ok ([], rest)
    else
      match contJoinInline (trimSpace l) rest with
      | .error e => .error e
      | .ok (joined, rest') =>
        match blockLoopInlineF serviceName gcrURL env fuel rest' with
        | .error e => .error e
        | .ok (cmds, r) => .ok (buildCmdInline joined env serviceName gcrURL :: cmds, r)

/-- Entry point for the inline block-scanning loop. -/
def blockLoopInline (serviceName gcrURL : List Char) (env : Env)
    (ls : List (List Char)) : Except InlineErr (List Cmd × List (List Char)) :=
  blockLoopInlineF serviceName gcrURL env (ls.length + 1) ls

theorem blockLoopInlineF_rest_lt (serviceName gcrURL : List Char) (env : Env) :
    ∀ fuel ls cmds r, blockLoopInlineF serviceName gcrURL env fuel ls = .ok (cmds, r) →
      r.length < ls.length := by
  intro fuel
  induction fuel with
  | zero => intro ls cmds r h; simp [blockLoopInlineF] at h
  | succ fuel ih =>
    intro ls cmds r h
    cases ls with
    | nil => simp [blockLoopInlineF] at h
    | cons l rest =>
      simp only [blockLoopInlineF] at h
      split at h
      · simp at h
        simp only [List.length_cons, ← h.2]
        omega
      · split at h
        · simp at h
        · next joined rest' hcj =>
            split at h
            · simp at h
            · next cmds' r' hbl =>
                simp at h
                have h1 := contJoinInline_rest_le _ _ _ _ hcj
                have h3 := ih rest' _ _ hbl
                simp only [List.length_cons, ← h.2]
                omega

theorem blockLoopInlineF_irrel (serviceName gcrURL : List Char) (env : Env) :
    ∀ f1 f2 ls, ls.length < f1 → ls.length < f2 →
      blockLoopInlineF serviceName gcrURL env f1 ls =
        blockLoopInlineF serviceName gcrURL env f2 ls := by
  intro f1
  induction f1 with
  | zero => intro f2 ls h1 h2; omega
  | succ f1 ih =>
    intro f2 ls h1 h2
    cases f2 with
    | zero => omega
    | succ f2 =>
      cases ls with
      | nil => rfl
      | cons l rest =>
        simp only [List.length_cons] at h1 h2
        by_cases hc : containsSub l (strL "```")
        · simp [blockLoopInlineF, hc]
        · cases hcj : contJoinInline (trimSpace l) rest with
          | error e => simp [blockLoopInlineF, hc, hcj]
          | ok p =>
            obtain ⟨joined, rest'⟩ := p
            have hle := contJoinInline_rest_le _ _ _ _ hcj
            simp only [blockLoopInlineF, hc, if_false, hcj]
            rw [ih f2 rest' (by omega) (by omega)]

theorem blockLoopInline_rest_lt (serviceName gcrURL : List Char) (env : Env) :
    ∀ ls cmds r, blockLoopInline serviceName gcrURL env ls = .ok (cmds, r) →
      r.length < ls.length := by
  intro ls cmds r h
  exact blockLoopInlineF_rest_lt serviceName gcrURL env _ ls cmds r h

/-- Fuelled outer scanning loop of the inline `parseREADME` variant,
accumulating the lifecycle built so far. -/
def parseREADMEInlineAuxF (serviceName gcrURL : List Char) (env : Env) :
    Nat → List (List Char) → List Cmd → Except InlineErr (List Cmd)
  | 0, _, _ => .error .noCommands
  | _ + 1, [], acc => if acc.length = 0 then .error .noCommands else .ok acc
  | fuel + 1, line :: rest, acc =>
    if containsSub line codeTag then
      match rest with
      | [] => .error .startNotFound
      | start :: rest2 =>
        if ¬ containsSub start (strL "```") then .error .startNotFound
        else
          match blockLoopInline serviceName gcrURL env rest2 with
          | .error e => .error e
          | .ok (cmds, r) => parseREADMEInlineAuxF serviceName gcrURL env fuel r (acc ++ cmds)
    else parseREADMEInlineAuxF serviceName gcrURL env fuel rest acc

/-- Go `parseREADME` of the inline variant (the version whose block loop trims
each line and joins continuations in place): scan for lines containing the
code tag, require a triple-backtick line immediately after, and convert the
block's lines to commands; an empty resulting lifecycle is the
`no commands found` error. -/
def parseREADMEInline (doc : List (List Char)) (serviceName gcrURL : List Char) (env : Env) :
    Except InlineErr (List Cmd) :=
  parseREADMEInlineAuxF serviceName gcrURL env (doc.length + 1) doc []

/-! ## Claim theorems -/

/-- C10: in the parseREADME variant that trims and joins lines inline, a
document whose tagged code block contains a whitespace-only body line makes
the parser trim the line to the empty string and then index its last
character, so parsing hits the index-out-of-range panic instead of skipping
the blank line or returning an ordinary error. -/
theorem C10_inline_parseREADME_panics_on_blank_line :
    parseREADMEInline
      [strL "\x7bsst-run-unix\x7d", strL "```", strL "   ", strL "```"]
      (strL "service") (strL "gcr.io/p/t") [] = .error .panicIndexOutOfRange := by
  rfl

/-- C9: on every outcome of `getCloudBuildConfigLifecycle` in which the
temporary file has been created, the caller receives a cleanup callback that
removes exactly that file — including the outcomes in which resolution
returns an error. -/
theorem C9_cleanup_returned_whenever_temp_file_created
    (w : CBWorld) (serviceName gcrURL runRegion : List Char)
    (substitutions : List (List Char × List Char)) (env : Env)
    (hc : (getCloudBuildConfigLifecycle w serviceName gcrURL runRegion substitutions env).created
      = true) :
    ∃ nm, w.tempFileName = some nm ∧
      (getCloudBuildConfigLifecycle w serviceName gcrURL runRegion substitutions env).cleanup
        = some nm := by
  obtain ⟨ro, uo, st, mo, tf, wo, co⟩ := w
  cases ro <;> cases uo <;> cases mo <;> cases wo <;> cases co <;>
    cases tf <;>
    simp_all [getCloudBuildConfigLifecycle]

/-- Witness for C9 at a concrete world in which every effect succeeds. -/
theorem C9_cleanup_returned_whenever_temp_file_created_witness :
    ∃ nm, (CBWorld.mk true true [] true (some (strL "tmp-example")) true true).tempFileName
        = some nm ∧
      (getCloudBuildConfigLifecycle
        (CBWorld.mk true true [] true (some (strL "tmp-example")) true true)
        (strL "svc") (strL "gcr.io/p/t") (strL "us-east1") [] []).cleanup = some nm :=
  C9_cleanup_returned_whenever_temp_file_created _ _ _ _ _ _ rfl

/-- C2: lifecycle resolution tries the build-config file, the README and the
static defaults in that order, stopping at the first success; every
build-config error aborts resolution; a README error falls through to the
defaults exactly when it is the `no tagged code blocks found` condition; and
the static default branch always succeeds. -/
theorem C2_resolution_order_and_fatality
    (w : ResWorld) (serviceName gcrURL runRegion : List Char)
    (substitutions : List (List Char × List Char)) (env : Env) :
    (w.cloudBuildConfigExists = true →
      ((getCloudBuildConfigLifecycle w.cbWorld serviceName gcrURL runRegion substitutions
          env).err = none →
        NewLifecycle w serviceName gcrURL runRegion substitutions env =
          .ok ((getCloudBuildConfigLifecycle w.cbWorld serviceName gcrURL runRegion substitutions
              env).lifecycle.getD [],
            (getCloudBuildConfigLifecycle w.cbWorld serviceName gcrURL runRegion substitutions
              env).cleanup)) ∧
      (∀ e, (getCloudBuildConfigLifecycle w.cbWorld serviceName gcrURL runRegion substitutions
          env).err = some e →
        NewLifecycle w serviceName gcrURL runRegion substitutions env =
          .error (.cloudBuildConfig e))) ∧
    (w.cloudBuildConfigExists = false → w.readmeExists = true →
      (∀ l, extractLifecycle w.readmeDoc serviceName gcrURL env = .ok l →
        NewLifecycle w serviceName gcrURL runRegion substitutions env = .ok (l, none)) ∧
      (extractLifecycle w.readmeDoc serviceName gcrURL env = .error .noBlocks →
        NewLifecycle w serviceName gcrURL runRegion substitutions env =
          .ok (defaultLifecycleFor w serviceName gcrURL, none)) ∧
      (∀ e, extractLifecycle w.readmeDoc serviceName gcrURL env = .error e → e ≠ .noBlocks →
        NewLifecycle w serviceName gcrURL runRegion substitutions env = .error (.readme e))) ∧
    (w.cloudBuildConfigExists = false → w.readmeExists = false →
      NewLifecycle w serviceName gcrURL runRegion substitutions env =
        .ok (defaultLifecycleFor w serviceName gcrURL, none)) := by
  refine ⟨fun hcb => ⟨fun hok => ?_, fun e herr => ?_⟩,
    fun hcb hrd => ⟨fun l hl => ?_, fun hnb => ?_, fun e he hne => ?_⟩,
    fun hcb hrd => ?_⟩
  · simp [NewLifecycle, hcb, hok]
  · simp [NewLifecycle, hcb, herr]
  · simp [NewLifecycle, hcb, hrd, hl]
  · simp [NewLifecycle, hcb, hrd, hnb]
  · cases e with
    | noBlocks => exact absurd rfl hne
    | extractErr e2 => simp [NewLifecycle, hcb, hrd, he]
    | cmdErr e2 => simp [NewLifecycle, hcb, hrd, he]
  · simp [NewLifecycle, hcb, hrd]

/-- Witness for C2: with no build-config file and a README containing one
tagged `echo` block, resolution succeeds from the README. -/
theorem C2_resolution_order_and_fatality_witness :
    NewLifecycle
      (ResWorld.mk false (CBWorld.mk true true [] true none true true) true
        [strL "\x7bsst-run-unix\x7d", strL "```", strL "echo hello world", strL "```"]
        false false)
      (strL "svc") (strL "gcr.io/p/t") (strL "us-east1") [] [] =
      .ok ([⟨strL "echo", [strL "hello", strL "world"]⟩], none) :=
  ((C2_resolution_order_and_fatality _ _ _ _ _ _).2.1 rfl rfl).1 _ rfl

/-- C4 counterexample: a README whose only tagged code block is empty makes
README resolution succeed with a lifecycle containing zero commands, refuting
the claim that success always yields at least one command. -/
theorem C4_counterexample_empty_block_succeeds :
    extractLifecycle [strL "\x7bsst-run-unix\x7d", strL "```", strL "```"]
      (strL "svc") (strL "gcr.io/p/t") [] = .ok [] := by
  rfl

/-- C4 (amended): whenever README-based resolution succeeds, at least one
tagged code block was found — a document with zero tagged blocks reports the
`no tagged code blocks found` condition instead — but the resulting lifecycle
itself may be empty when every tagged block yields zero commands. -/
theorem C4_amended_success_implies_blocks_found
    (doc : List (List Char)) (serviceName gcrURL : List Char) (env : Env)
    (l : List Cmd) (h : extractLifecycle doc serviceName gcrURL env = .ok l) :
    ∃ bs, extractCodeBlocks doc = .ok bs ∧ bs ≠ [] := by
  unfold extractLifecycle at h
  cases hec : extractCodeBlocks doc with
  | error e => rw [hec] at h; simp at h
  | ok bs =>
    rw [hec] at h
    simp only at h
    split at h
    · simp at h
    · next hlen =>
      refine ⟨bs, rfl, ?_⟩
      intro hbs
      rw [hbs] at hlen
      simp at hlen

/-- Witness for C4 at a concrete README with one nonempty tagged block. -/
theorem C4_amended_success_implies_blocks_found_witness :
    ∃ bs, extractCodeBlocks
        [strL "\x7bsst-run-unix\x7d", strL "```", strL "echo hi", strL "```"] = .ok bs ∧
      bs ≠ [] :=
  C4_amended_success_implies_blocks_found _ (strL "svc") (strL "gcr.io/p/t") [] _ rfl

/-- C3 counterexample: a continuation line whose next raw line in the block is
blank does not make command assembly fail; the continuation ends silently and
the partial command is emitted, refuting the claim that this case raises the
`unexpected end during continuation` error. -/
theorem C3_counterexample_blank_line_ends_continuation_silently :
    toCommands [strL "echo a\\", strL "", strL "echo b"] (strL "svc") (strL "gcr.io/p/t") [] =
      .ok [⟨strL "echo", [strL "a"]⟩, ⟨strL "echo", [strL "b"]⟩] := by
  rfl

/-- C3 (amended): command assembly fails with the
`unexpected end during continuation` error — whose payload is the block dump —
exactly in the block-end case: a line ending in the continuation backslash as
the last line of the block; a blank next raw line instead terminates the
continuation loop silently, yielding the joined partial line. -/
theorem C3_amended_continuation_end_cases
    (line : List Char) (rest : List (List Char)) (serviceName gcrURL : List Char) (env : Env)
    (hne : line ≠ []) (hbs : line.getLast? = some '\\') :
    contJoin line [] = .blockEnd ∧
    contJoin line ([] :: rest) = .done line.dropLast rest ∧
    toCommands [line] serviceName gcrURL env = .error (.endAfterLineCont [line]) := by
  refine ⟨?_, ?_, ?_⟩
  · unfold contJoin
    simp [hne, hbs]
  · unfold contJoin
    simp [hne, hbs]
  · unfold toCommands toCommandsAuxF
    simp only [List.length_cons, List.length_nil]
    rw [if_neg hne]
    have hcj : contJoin line [] = .blockEnd := by
      unfold contJoin
      simp [hne, hbs]
    rw [hcj]

/-- Witness for C3 (amended) at a concrete continuation line. -/
theorem C3_amended_continuation_end_cases_witness :
    contJoin (strL "echo multi \\") [] = .blockEnd ∧
    contJoin (strL "echo multi \\") ([] :: [strL "x"]) =
      .done (strL "echo multi \\").dropLast [strL "x"] ∧
    toCommands [strL "echo multi \\"] (strL "svc") (strL "gcr.io/p/t") [] =
      .error (.endAfterLineCont [strL "echo multi \\"]) :=
  C3_amended_continuation_end_cases (strL "echo multi \\") [strL "x"] (strL "svc")
    (strL "gcr.io/p/t") [] (by decide) (by decide)

/-! ### Lemmas on the three scanning loops of `replaceServiceName` -/

theorem sentinelScan_noRun (sentinel serviceName : List Char) :
    ∀ args, (∀ a ∈ args, a ≠ sentinel ∧ a ≠ strL "run") →
      sentinelScan sentinel serviceName args = .noRun := by
  intro args
  induction args with
  | nil => intro h; rfl
  | cons a rest ih =>
    intro h
    have ha := h a (by simp)
    unfold sentinelScan
    rw [if_neg ha.1, if_neg ha.2, ih (fun x hx => h x (by simp [hx]))]

theorem sentinelScan_replaced (sentinel serviceName : List Char) :
    ∀ p q, (∀ a ∈ p, a ≠ sentinel ∧ a ≠ strL "run") →
      sentinelScan sentinel serviceName (p ++ sentinel :: q) =
        .replaced (p ++ serviceName :: q) := by
  intro p
  induction p with
  | nil => intro q h; simp [sentinelScan]
  | cons a rest ih =>
    intro q h
    have ha := h a (by simp)
    simp only [List.cons_append]
    unfold sentinelScan
    rw [if_neg ha.1, if_neg ha.2, ih q (fun x hx => h x (by simp [hx]))]

theorem sentinelScan_foundRun (sentinel serviceName : List Char)
    (hsr : sentinel ≠ strL "run") :
    ∀ p q, (∀ a ∈ p, a ≠ sentinel ∧ a ≠ strL "run") →
      sentinelScan sentinel serviceName (p ++ strL "run" :: q) = .foundRun := by
  intro p
  induction p with
  | nil =>
    intro q h
    simp only [List.nil_append]
    unfold sentinelScan
    rw [if_neg (fun hh => hsr hh.symm), if_pos rfl]
  | cons a rest ih =>
    intro q h
    have ha := h a (by simp)
    simp only [List.cons_append]
    unfold sentinelScan
    rw [if_neg ha.1, if_neg ha.2, ih q (fun x hx => h x (by simp [hx]))]

theorem verbScan_found (serviceName : List Char) :
    ∀ p v x q, (∀ a ∈ p, a ≠ strL "deploy" ∧ a ≠ strL "update") →
      (v = strL "deploy" ∨ v = strL "update") →
      verbScan serviceName (p ++ v :: x :: q) = some (p ++ v :: serviceName :: q) := by
  intro p
  induction p with
  | nil =>
    intro v x q h hv
    simp only [List.nil_append]
    unfold verbScan
    have : (v = strL "deploy" || v = strL "update") = true := by
      rcases hv with h1 | h1 <;> simp [h1]
    rw [if_pos this]
  | cons a rest ih =>
    intro v x q h hv
    have ha := h a (by simp)
    have hrest := ih v x q (fun y hy => h y (by simp [hy])) hv
    cases rest with
    | nil =>
      simp only [List.nil_append] at hrest ⊢
      simp only [List.cons_append, List.nil_append]
      unfold verbScan
      have hna : (a = strL "deploy" || a = strL "update") = false := by
        simp [ha.1, ha.2]
      rw [if_neg (by simp [hna, ha.1, ha.2]), hrest]
    | cons b rest2 =>
      simp only [List.cons_append] at hrest ⊢
      unfold verbScan
      rw [if_neg (by simp [ha.1, ha.2]), hrest]

theorem verbScan_none (serviceName : List Char) :
    ∀ args, (∀ p v x q, args = p ++ v :: x :: q → v ≠ strL "deploy" ∧ v ≠ strL "update") →
      verbScan serviceName args = none := by
  intro args
  induction args with
  | nil => intro h; rfl
  | cons a rest ih =>
    intro h
    cases rest with
    | nil => rfl
    | cons b rest2 =>
      have ha := h [] a b rest2 rfl
      unfold verbScan
      rw [if_neg (by simp [ha.1, ha.2])]
      rw [ih (fun p v x q hpq => h (a :: p) v x q (by simp [hpq]))]

theorem failsafeScan_none (serviceName : List Char) :
    ∀ args, (∀ a ∈ args, containsSub a (strL "--") = true) →
      failsafeScan serviceName args = none := by
  intro args
  induction args with
  | nil => intro h; rfl
  | cons a rest ih =>
    intro h
    unfold failsafeScan
    rw [ih (fun x hx => h x (by simp [hx]))]
    simp [h a (by simp)]

theorem failsafeScan_found (serviceName : List Char) :
    ∀ p y q, containsSub y (strL "--") = false →
      (∀ a ∈ q, containsSub a (strL "--") = true) →
      failsafeScan serviceName (p ++ y :: q) = some (p ++ serviceName :: q) := by
  intro p
  induction p with
  | nil =>
    intro y q hy hq
    simp only [List.nil_append]
    unfold failsafeScan
    rw [failsafeScan_none serviceName q hq]
    simp [hy]
  | cons a rest ih =>
    intro y q hy hq
    simp only [List.cons_append]
    unfold failsafeScan
    rw [ih y q hy hq]

/-- C1 counterexample: with the sentinel environment variable set, an argument
equal to its expansion is replaced even though the argument list contains no
`run` keyword, refuting the claim that the substitution applies only when
`run` is present. -/
theorem C1_counterexample_sentinel_replacement_without_run :
    replaceServiceName (strL "gcloud") [strL "deploy", strL "marker"]
        [(strL "CLOUD_RUN_SERVICE_NAME", strL "marker")] (strL "svc") =
      [strL "deploy", strL "svc"] ∧
    strL "run" ∉ [strL "deploy", strL "marker"] := by
  exact ⟨rfl, by decide⟩

/-- C1 (amended): the substitution applies when the program name contains
`gcloud` as a substring.  The sentinel rule replaces the first argument equal
to the expansion of `$CLOUD_RUN_SERVICE_NAME`, scanning no further than the
first `run` argument but applying even when no `run` argument exists; the verb
rule (argument after `deploy`/`update`) and the failsafe rule (last argument
not containing `--`) apply only when a `run` argument was reached; when no
rule finds a candidate the argument list is returned unmodified. -/
theorem C1_amended_replaceServiceName_behaviour
    (name : List Char) (args : List (List Char)) (env : Env) (serviceName : List Char) :
    (containsSub name (strL "gcloud") = false → replaceServiceName name args env serviceName
      = args) ∧
    (containsSub name (strL "gcloud") = true →
      (∀ a ∈ args, a ≠ expandEnv env (strL "$CLOUD_RUN_SERVICE_NAME") ∧ a ≠ strL "run") →
      replaceServiceName name args env serviceName = args) ∧
    (containsSub name (strL "gcloud") = true →
      ∀ p q, args = p ++ expandEnv env (strL "$CLOUD_RUN_SERVICE_NAME") :: q →
        (∀ a ∈ p, a ≠ expandEnv env (strL "$CLOUD_RUN_SERVICE_NAME") ∧ a ≠ strL "run") →
        replaceServiceName name args env serviceName = p ++ serviceName :: q) ∧
    (containsSub name (strL "gcloud") = true →
      expandEnv env (strL "$CLOUD_RUN_SERVICE_NAME") ≠ strL "run" →
      ∀ p1 r1, args = p1 ++ strL "run" :: r1 →
        (∀ a ∈ p1, a ≠ expandEnv env (strL "$CLOUD_RUN_SERVICE_NAME") ∧ a ≠ strL "run") →
        (∀ p v x q, args = p ++ v :: x :: q →
          (v = strL "deploy" ∨ v = strL "update") →
          (∀ a ∈ p, a ≠ strL "deploy" ∧ a ≠ strL "update") →
          replaceServiceName name args env serviceName = p ++ v :: serviceName :: q) ∧
        ((∀ p v x q, args = p ++ v :: x :: q → v ≠ strL "deploy" ∧ v ≠ strL "update") →
          (∀ p3 y q3, args = p3 ++ y :: q3 → containsSub y (strL "--") = false →
            (∀ a ∈ q3, containsSub a (strL "--") = true) →
            replaceServiceName name args env serviceName = p3 ++ serviceName :: q3) ∧
          ((∀ a ∈ args, containsSub a (strL "--") = true) →
            replaceServiceName name args env serviceName = args))) := by
  refine ⟨fun hng => ?_, fun hg hfree => ?_, fun hg p q hpq hp => ?_,
    fun hg hsr p1 r1 hrun hp1 => ⟨fun p v x q hpq hv hpverb => ?_, fun hnoverb => ⟨?_, ?_⟩⟩⟩
  · unfold replaceServiceName
    rw [if_pos (by simp [hng])]
  · unfold replaceServiceName
    rw [if_neg (by simp [hg])]
    simp only
    rw [sentinelScan_noRun _ _ args hfree]
  · unfold replaceServiceName
    rw [if_neg (by simp [hg])]
    simp only
    rw [hpq, sentinelScan_replaced _ _ p q hp]
  · unfold replaceServiceName
    rw [if_neg (by simp [hg])]
    simp only
    rw [hrun, sentinelScan_foundRun _ _ hsr p1 r1 hp1, ← hrun, hpq,
      verbScan_found _ p v x q hpverb hv]
  · intro p3 y q3 hpq3 hy hq3
    unfold replaceServiceName
    rw [if_neg (by simp [hg])]
    simp only
    rw [hrun, sentinelScan_foundRun _ _ hsr p1 r1 hp1, ← hrun,
      verbScan_none _ args hnoverb, hpq3, failsafeScan_found _ p3 y q3 hy hq3]
  · intro hall
    unfold replaceServiceName
    rw [if_neg (by simp [hg])]
    simp only
    rw [hrun, sentinelScan_foundRun _ _ hsr p1 r1 hp1, ← hrun,
      verbScan_none _ args hnoverb, failsafeScan_none _ args hall]

/-- Witness for C1 (amended), exercising the verb rule on a concrete
`gcloud run services deploy` command line. -/
theorem C1_amended_replaceServiceName_behaviour_witness :
    replaceServiceName (strL "gcloud")
        [strL "run", strL "services", strL "deploy", strL "hello_world"] []
        (strL "unique_service_name") =
      [strL "run", strL "services"] ++ strL "deploy" :: strL "unique_service_name" :: [] :=
  ((C1_amended_replaceServiceName_behaviour (strL "gcloud")
      [strL "run", strL "services", strL "deploy", strL "hello_world"] []
      (strL "unique_service_name")).2.2.2 (by decide) (by decide) []
      [strL "services", strL "deploy", strL "hello_world"] (by decide)
      (by decide)).1
    [strL "run", strL "services"] (strL "deploy") (strL "hello_world") [] (by decide)
    (by decide) (by decide)

/-! ### Generic takeWhile/dropWhile helpers -/

theorem dropWhile_all_eq_nil {α : Type} (p : α → Bool) :
    ∀ l : List α, (∀ c ∈ l, p c = true) → l.dropWhile p = [] := by
  intro l
  induction l with
  | nil => intro _; rfl
  | cons c rest ih =>
    intro h
    rw [List.dropWhile_cons_of_pos (h c (by simp))]
    exact ih (fun x hx => h x (by simp [hx]))

theorem dropWhile_append_all {α : Type} (p : α → Bool) :
    ∀ xs ys : List α, (∀ c ∈ xs, p c = true) →
      (xs ++ ys).dropWhile p = ys.dropWhile p := by
  intro xs
  induction xs with
  | nil => intro ys _; rfl
  | cons c rest ih =>
    intro ys h
    simp only [List.cons_append]
    rw [List.dropWhile_cons_of_pos (h c (by simp))]
    exact ih ys (fun x hx => h x (by simp [hx]))

theorem takeWhile_append_all {α : Type} (p : α → Bool) :
    ∀ xs ys : List α, (∀ c ∈ xs, p c = true) →
      (xs ++ ys).takeWhile p = xs ++ ys.takeWhile p := by
  intro xs
  induction xs with
  | nil => intro ys _; rfl
  | cons c rest ih =>
    intro ys h
    simp only [List.cons_append]
    rw [List.takeWhile_cons_of_pos (h c (by simp))]
    rw [ih ys (fun x hx => h x (by simp [hx]))]

theorem takeWhile_eq_nil_of_head {α : Type} (p : α → Bool) :
    ∀ l : List α, (∀ c, l.head? = some c → p c = false) → l.takeWhile p = [] := by
  intro l h
  cases l with
  | nil => rfl
  | cons c rest =>
    rw [List.takeWhile_cons_of_neg]
    simp [h c rfl]

theorem dropWhile_eq_self_of_head {α : Type} (p : α → Bool) :
    ∀ l : List α, (∀ c, l.head? = some c → p c = false) → l.dropWhile p = l := by
  intro l h
  cases l with
  | nil => rfl
  | cons c rest =>
    rw [List.dropWhile_cons_of_neg]
    simp [h c rfl]

/-! ### Character-class facts -/

theorem isWordChar_not_unicodeSpace (c : Char) (h : isWordChar c = true) :
    unicodeSpace c = false := by
  simp only [isWordChar, Bool.or_eq_true, Bool.and_eq_true, decide_eq_true_eq] at h
  simp only [unicodeSpace, Bool.or_eq_false_iff, Bool.and_eq_false_iff,
    decide_eq_false_iff_not]
  omega

theorem isWordChar_ne_backtick (c : Char) (h : isWordChar c = true) : ¬ c = backtick := by
  intro he
  subst he
  revert h
  decide

theorem backtick_not_word : isWordChar backtick = false := by decide

theorem backtick_not_space : unicodeSpace backtick = false := by decide

/-- A list all of whose characters are non-space is unchanged by
`trimSpace`. -/
theorem trimSpace_eq_self (l : List Char) (h : ∀ c ∈ l, unicodeSpace c = false) :
    trimSpace l = l := by
  unfold trimSpace
  rw [dropWhile_eq_self_of_head unicodeSpace l
    (fun c hc => h c (List.mem_of_mem_head? hc))]
  rw [dropWhile_eq_self_of_head unicodeSpace l.reverse
    (fun c hc => h c (List.mem_reverse.mp (List.mem_of_mem_head? hc)))]
  exact List.reverse_reverse l

/-! ### Fence-matcher and extraction lemmas -/

theorem countBackticks_append (x y : List Char) :
    countBackticks (x ++ y) = countBackticks x + countBackticks y := by
  simp [countBackticks, List.filter_append]

theorem mdCodeFenceEnd_le_count (k : Nat) (t : List Char) (h : mdCodeFenceEnd k t = true) :
    k ≤ countBackticks t := by
  unfold mdCodeFenceEnd at h
  simp only [Bool.and_eq_true, decide_eq_true_eq] at h
  obtain ⟨hk, _⟩ := h
  have hsplit : t = t.takeWhile isWordChar ++ t.dropWhile isWordChar :=
    (List.takeWhile_append_dropWhile isWordChar t).symm
  have h1 : countBackticks (t.takeWhile isWordChar) = 0 := by
    simp only [countBackticks, List.length_eq_zero]
    rw [List.filter_eq_nil]
    intro c hc
    have hw := List.mem_takeWhile_imp hc
    simp only [decide_eq_true_eq]
    exact isWordChar_ne_backtick c hw
  set r := t.dropWhile isWordChar with hr
  have hsplit2 : r = r.takeWhile (fun c => c = backtick) ++
      r.dropWhile (fun c => c = backtick) :=
    (List.takeWhile_append_dropWhile (fun c => decide (c = backtick)) r).symm
  have h2 : countBackticks (r.takeWhile (fun c => c = backtick)) =
      (r.takeWhile (fun c => c = backtick)).length := by
    simp only [countBackticks]
    rw [List.filter_eq_self.mpr]
    intro c hc
    have := List.mem_takeWhile_imp hc
    simpa using this
  calc k ≤ (r.takeWhile (fun c => c = backtick)).length := hk
    _ = countBackticks (r.takeWhile (fun c => c = backtick)) := h2.symm
    _ ≤ countBackticks (r.takeWhile (fun c => c = backtick)) +
          countBackticks (r.dropWhile (fun c => c = backtick)) := Nat.le_add_right _ _
    _ = countBackticks r := by rw [← countBackticks_append, ← hsplit2]
    _ ≤ countBackticks (t.takeWhile isWordChar) + countBackticks r := Nat.le_add_left _ _
    _ = countBackticks t := by rw [← countBackticks_append, ← hsplit]

theorem countBackticks_trimSpace_le (l : List Char) :
    countBackticks (trimSpace l) ≤ countBackticks l := by
  have h1 : trimSpace l <:+: l := by
    unfold trimSpace
    have hs : (l.dropWhile unicodeSpace) <:+ l := List.dropWhile_suffix unicodeSpace
    have hp : ((l.dropWhile unicodeSpace).reverse.dropWhile unicodeSpace).reverse <+:
        (l.dropWhile unicodeSpace) := by
      have := List.dropWhile_suffix (l := (l.dropWhile unicodeSpace).reverse) unicodeSpace
      obtain ⟨u, hu⟩ := this
      refine ⟨u.reverse, ?_⟩
      have := congrArg List.reverse hu
      simpa using this
    obtain ⟨u, hu⟩ := hp
    obtain ⟨v, hv⟩ := hs
    exact ⟨v, u, by rw [List.append_assoc, hu, hv]⟩
  have h2 := (h1.sublist.filter (fun c => decide (c = backtick)))
  simpa [countBackticks] using h2.length_le

theorem mdCodeFenceEnd_of_shape (k : Nat) (w1 b w2 : List Char)
    (hw1 : ∀ c ∈ w1, isWordChar c = true) (hb : ∀ c ∈ b, c = backtick)
    (hk : k ≤ b.length) (hw2 : ∀ c ∈ w2, isWordChar c = true) :
    mdCodeFenceEnd k (w1 ++ b ++ w2) = true := by
  unfold mdCodeFenceEnd
  simp only [Bool.and_eq_true, decide_eq_true_eq]
  cases b with
  | nil =>
    have hk0 : k = 0 := by simpa using hk
    subst hk0
    have hall : ∀ c ∈ w1 ++ ([] : List Char) ++ w2, isWordChar c = true := by
      intro c hc
      simp only [List.append_nil, List.mem_append] at hc
      rcases hc with hc | hc
      · exact hw1 c hc
      · exact hw2 c hc
    rw [dropWhile_all_eq_nil isWordChar _ hall]
    simp
  | cons b0 btail =>
    have hb0 : b0 = backtick := hb b0 (by simp)
    have hdrop : (w1 ++ (b0 :: btail) ++ w2).dropWhile isWordChar = (b0 :: btail) ++ w2 := by
      rw [List.append_assoc]
      rw [dropWhile_append_all isWordChar w1 _ hw1]
      apply dropWhile_eq_self_of_head
      intro c hc
      simp only [List.cons_append, List.head?_cons, Option.some.injEq] at hc
      subst hc
      rw [hb0]
      exact backtick_not_word
    rw [hdrop]
    have htake : ((b0 :: btail) ++ w2).takeWhile (fun c => c = backtick) = b0 :: btail := by
      rw [takeWhile_append_all _ (b0 :: btail) w2 (fun c hc => by simp [hb c hc])]
      rw [takeWhile_eq_nil_of_head _ w2 (fun c hc => by
        have hcw := hw2 c (List.mem_of_mem_head? hc)
        simp [isWordChar_ne_backtick c hcw])]
      simp
    rw [htake]
    refine ⟨hk, ?_⟩
    rw [List.drop_left]
    simp only [List.all_eq_true]
    intro c hc
    exact hw2 c hc

theorem scanBlock_cons_not_end (k : Nat) (l : List Char) (ls : List (List Char))
    (h : mdCodeFenceEnd k (trimSpace l) = false) :
    scanBlock k (l :: ls) =
      (scanBlock k ls).map (fun p => (trimSpace l :: p.1, p.2)) := by
  conv_lhs => rw [scanBlock]
  rw [if_neg (by simp [h])]
  cases hsc : scanBlock k ls with
  | none => rfl
  | some p =>
    obtain ⟨b, r⟩ := p
    rfl

theorem scanBlock_none_of_all (k : Nat) :
    ∀ body, (∀ l ∈ body, mdCodeFenceEnd k (trimSpace l) = false) →
      scanBlock k body = none := by
  intro body
  induction body with
  | nil => intro _; rfl
  | cons l rest ih =>
    intro h
    unfold scanBlock
    rw [if_neg (by simp [h l (by simp)])]
    rw [ih (fun x hx => h x (by simp [hx]))]

theorem scanBlock_closes (k : Nat) :
    ∀ body close rest, (∀ l ∈ body, mdCodeFenceEnd k (trimSpace l) = false) →
      mdCodeFenceEnd k (trimSpace close) = true →
      scanBlock k (body ++ close :: rest) = some (body.map trimSpace, rest) := by
  intro body
  induction body with
  | nil =>
    intro close rest _ hc
    simp only [List.nil_append]
    unfold scanBlock
    rw [if_pos hc]
    simp
  | cons l btail ih =>
    intro close rest h hc
    simp only [List.cons_append]
    unfold scanBlock
    rw [if_neg (by simp [h l (by simp)])]
    rw [ih close rest (fun x hx => h x (by simp [hx])) hc]
    simp

theorem extract_tagfree_cons (l : List Char) (rest : List (List Char))
    (h : containsSub l codeTag = false) :
    extractCodeBlocks (l :: rest) = extractCodeBlocks rest := by
  show extractCodeBlocksF ((l :: rest).length + 1) (l :: rest) = _
  simp only [List.length_cons]
  simp only [extractCodeBlocksF, h, Bool.false_eq_true, if_false]
  exact extractCodeBlocksF_eq _ _ (by omega)

theorem extract_tagfree_append (pre : List (List Char)) (xs : List (List Char))
    (h : ∀ l ∈ pre, containsSub l codeTag = false) :
    extractCodeBlocks (pre ++ xs) = extractCodeBlocks xs := by
  induction pre with
  | nil => rfl
  | cons l ptail ih =>
    rw [List.cons_append, extract_tagfree_cons l _ (h l (by simp))]
    exact ih (fun x hx => h x (by simp [hx]))

theorem extract_tag_eof (t : List Char) (ht : containsSub t codeTag = true) :
    extractCodeBlocks [t] = .error .eofAfterCodeTag := by
  show extractCodeBlocksF 2 [t] = _
  simp [extractCodeBlocksF, ht]

theorem extract_tag_bad_start (t bad : List Char) (rest : List (List Char))
    (ht : containsSub t codeTag = true) (hbad : mdCodeFenceStart bad = false) :
    extractCodeBlocks (t :: bad :: rest) = .error .codeBlockStartNotFound := by
  show extractCodeBlocksF ((t :: bad :: rest).length + 1) _ = _
  simp only [List.length_cons]
  simp [extractCodeBlocksF, ht, hbad]

theorem extract_tag_not_closed (t fence : List Char) (body : List (List Char))
    (ht : containsSub t codeTag = true) (hf : mdCodeFenceStart fence = true)
    (hsb : scanBlock (countBackticks fence) body = none) :
    extractCodeBlocks (t :: fence :: body) = .error .codeBlockNotClosed := by
  show extractCodeBlocksF ((t :: fence :: body).length + 1) _ = _
  simp only [List.length_cons]
  simp [extractCodeBlocksF, ht, hf, hsb]

theorem extract_block_cons (t fence : List Char) (rest2 r : List (List Char))
    (b : List (List Char))
    (ht : containsSub t codeTag = true) (hf : mdCodeFenceStart fence = true)
    (hsb : scanBlock (countBackticks fence) rest2 = some (b, r)) :
    extractCodeBlocks (t :: fence :: rest2) =
      match extractCodeBlocks r with
      | .error e => .error e
      | .ok blocks => .ok (b :: blocks) := by
  show extractCodeBlocksF ((t :: fence :: rest2).length + 1) _ = _
  simp only [List.length_cons]
  simp only [extractCodeBlocksF, ht, if_true, hf, hsb]
  have hlt := scanBlock_rest_lt _ _ _ _ hsb
  rw [extractCodeBlocksF_eq _ _ (by omega)]

/-! ### Well-formed documents for C5 -/

/-- A tagged code block of a well-formed document: the sentinel line, the
opening fence, the raw body lines, and the closing fence. -/
structure TaggedBlock where
  tagLine : List Char
  fenceLine : List Char
  body : List (List Char)
  closeLine : List Char

/-- A document segment: either a single line not containing the sentinel tag
(which covers prose and untagged fenced blocks alike), or a tagged code
block. -/
inductive Seg where
  | plain (l : List Char) : Seg
  | block (b : TaggedBlock) : Seg

/-- The lines a segment contributes to the document. -/
def Seg.render : Seg → List (List Char)
  | .plain l => [l]
  | .block b => b.tagLine :: b.fenceLine :: (b.body ++ [b.closeLine])

/-- Well-formedness of a segment: plain lines do not contain the tag; a
tagged block has a tag line, an opening fence, body lines that do not match
the closing pattern, and a closing line that does. -/
def Seg.wf : Seg → Bool
  | .plain l => !(containsSub l codeTag)
  | .block b =>
    containsSub b.tagLine codeTag && mdCodeFenceStart b.fenceLine &&
    b.body.all (fun l => !(mdCodeFenceEnd (countBackticks b.fenceLine) (trimSpace l))) &&
    mdCodeFenceEnd (countBackticks b.fenceLine) (trimSpace b.closeLine)

/-- The whole document described by a list of segments. -/
def renderDoc (segs : List Seg) : List (List Char) :=
  (segs.map Seg.render).flatten

/-- The trimmed bodies of the tagged blocks of a document, in order. -/
def taggedBodies (segs : List Seg) : List (List (List Char)) :=
  segs.filterMap (fun s =>
    match s with
    | .plain _ => none
    | .block b => some (b.body.map trimSpace))

/-- C5: for every well-formed document, extraction returns exactly the tagged
code blocks, in document order — one block per sentinel-tagged fence group,
and nothing for any other line (in particular, fenced blocks not preceded by
the sentinel tag are never included). -/
theorem C5_extraction_returns_exactly_tagged_blocks
    (segs : List Seg) (h : ∀ s ∈ segs, s.wf = true) :
    extractCodeBlocks (renderDoc segs) = .ok (taggedBodies segs) := by
  induction segs with
  | nil => rfl
  | cons s stail ih =>
    have hs := h s (by simp)
    have htail := ih (fun x hx => h x (by simp [hx]))
    cases s with
    | plain l =>
      simp only [Seg.wf, Bool.not_eq_true'] at hs
      simp only [renderDoc, List.map_cons, List.flatten_cons, Seg.render, taggedBodies,
        List.filterMap_cons]
      rw [List.singleton_append, extract_tagfree_cons l _ hs]
      exact htail
    | block b =>
      simp only [Seg.wf, Bool.and_eq_true, List.all_eq_true, Bool.not_eq_true'] at hs
      obtain ⟨⟨⟨ht, hf⟩, hbody⟩, hclose⟩ := hs
      simp only [renderDoc, List.map_cons, List.flatten_cons, Seg.render, taggedBodies,
        List.filterMap_cons]
      have hsb : scanBlock (countBackticks b.fenceLine)
          ((b.body ++ [b.closeLine]) ++ renderDoc stail) =
          some (b.body.map trimSpace, renderDoc stail) := by
        rw [List.append_assoc, List.singleton_append]
        exact scanBlock_closes _ b.body b.closeLine _ hbody hclose
      have hstep := extract_block_cons b.tagLine b.fenceLine _ _ _ ht hf hsb
      simp only [renderDoc, List.cons_append, List.append_assoc, List.nil_append,
        List.singleton_append] at hstep htail ⊢
      rw [hstep, htail]
      rfl

/-- Witness for C5: a document with one prose line, one tagged block, an
untagged fenced block, and another tagged block. -/
theorem C5_extraction_returns_exactly_tagged_blocks_witness :
    extractCodeBlocks (renderDoc
      [Seg.plain (strL "intro text"),
       Seg.block ⟨strL "[//]: # (\x7bsst-run-unix\x7d)", strL "```", [strL "echo build"],
         strL "```"⟩,
       Seg.plain (strL "```"), Seg.plain (strL "echo ignored"), Seg.plain (strL "```"),
       Seg.block ⟨strL "\x7bsst-run-unix\x7d", strL "````sh", [strL "echo deploy"],
         strL "````"⟩]) =
      .ok (taggedBodies
      [Seg.plain (strL "intro text"),
       Seg.block ⟨strL "[//]: # (\x7bsst-run-unix\x7d)", strL "```", [strL "echo build"],
         strL "```"⟩,
       Seg.plain (strL "```"), Seg.plain (strL "echo ignored"), Seg.plain (strL "```"),
       Seg.block ⟨strL "\x7bsst-run-unix\x7d", strL "````sh", [strL "echo deploy"],
         strL "````"⟩]) :=
  C5_extraction_returns_exactly_tagged_blocks _ (by decide)

/-- C6: during extraction, a sentinel line as the last line of the document
yields the `unexpected EOF after code tag` error; a sentinel line followed by
a line that does not match the fence-opening pattern yields the
`code block start not found` error; and a tagged block whose closing fence is
never found yields the `code block not closed` error. -/
theorem C6_extraction_error_conditions
    (pre : List (List Char)) (hpre : ∀ l ∈ pre, containsSub l codeTag = false)
    (t : List Char) (ht : containsSub t codeTag = true) :
    (extractCodeBlocks (pre ++ [t]) = .error .eofAfterCodeTag) ∧
    (∀ bad rest, mdCodeFenceStart bad = false →
      extractCodeBlocks (pre ++ t :: bad :: rest) = .error .codeBlockStartNotFound) ∧
    (∀ fence body, mdCodeFenceStart fence = true →
      (∀ l ∈ body, mdCodeFenceEnd (countBackticks fence) (trimSpace l) = false) →
      extractCodeBlocks (pre ++ t :: fence :: body) = .error .codeBlockNotClosed) := by
  refine ⟨?_, fun bad rest hbad => ?_, fun fence body hf hbody => ?_⟩
  · rw [extract_tagfree_append pre _ hpre]
    exact extract_tag_eof t ht
  · rw [extract_tagfree_append pre _ hpre]
    exact extract_tag_bad_start t bad rest ht hbad
  · rw [extract_tagfree_append pre _ hpre]
    exact extract_tag_not_closed t fence body ht hf
      (scanBlock_none_of_all _ body hbody)

/-- Witness for C6 on concrete documents. -/
theorem C6_extraction_error_conditions_witness :
    (extractCodeBlocks [strL "intro", strL "\x7bsst-run-unix\x7d"] =
      .error .eofAfterCodeTag) ∧
    (extractCodeBlocks [strL "intro", strL "\x7bsst-run-unix\x7d", strL "not a fence",
        strL "```"] = .error .codeBlockStartNotFound) ∧
    (extractCodeBlocks [strL "intro", strL "\x7bsst-run-unix\x7d", strL "```",
        strL "echo unfinished"] = .error .codeBlockNotClosed) := by
  have h := C6_extraction_error_conditions [strL "intro"] (by decide)
    (strL "\x7bsst-run-unix\x7d") (by decide)
  exact ⟨h.1, h.2.1 (strL "not a fence") [strL "```"] (by decide),
    h.2.2 (strL "```") [strL "echo unfinished"] (by decide) (by decide)⟩

/-- C7: inside a tagged block whose opening fence has backtick count `k`, a
body line with fewer than `k` backticks never matches the closing pattern and
is accumulated as ordinary content, while a line consisting of an optional
leading word, `k` or more backticks and an optional trailing word matches the
closing pattern and closes the block. -/
theorem C7_closing_fence_rule (k : Nat) (line : List Char) (ls : List (List Char)) :
    (countBackticks line < k →
      mdCodeFenceEnd k (trimSpace line) = false ∧
      scanBlock k (line :: ls) =
        (scanBlock k ls).map (fun p => (trimSpace line :: p.1, p.2))) ∧
    (∀ w1 b w2, line = w1 ++ b ++ w2 → (∀ c ∈ w1, isWordChar c = true) →
      (∀ c ∈ b, c = backtick) → k ≤ b.length → (∀ c ∈ w2, isWordChar c = true) →
      mdCodeFenceEnd k (trimSpace line) = true ∧ scanBlock k (line :: ls) = some ([], ls)) := by
  constructor
  · intro hlt
    have hne : mdCodeFenceEnd k (trimSpace line) = false := by
      by_contra hcon
      have := mdCodeFenceEnd_le_count k (trimSpace line)
        (by revert hcon; cases mdCodeFenceEnd k (trimSpace line) <;> simp)
      have := countBackticks_trimSpace_le line
      omega
    exact ⟨hne, scanBlock_cons_not_end k line ls hne⟩
  · intro w1 b w2 hline hw1 hb hk hw2
    have htrim : trimSpace line = line := by
      apply trimSpace_eq_self
      intro c hc
      rw [hline] at hc
      simp only [List.mem_append] at hc
      rcases hc with (hc | hc) | hc
      · exact isWordChar_not_unicodeSpace c (hw1 c hc)
      · rw [hb c hc]; exact backtick_not_space
      · exact isWordChar_not_unicodeSpace c (hw2 c hc)
    have hend : mdCodeFenceEnd k (trimSpace line) = true := by
      rw [htrim, hline]
      exact mdCodeFenceEnd_of_shape k w1 b w2 hw1 hb hk hw2
    refine ⟨hend, ?_⟩
    unfold scanBlock
    rw [if_pos hend]

/-- Witness for C7 with a 4-backtick fence: a 3-backtick body line does not
close the block; a `js````` line does. -/
theorem C7_closing_fence_rule_witness :
    (mdCodeFenceEnd 4 (trimSpace (strL "```")) = false ∧
      scanBlock 4 (strL "```" :: [strL "````"]) =
        (scanBlock 4 [strL "````"]).map
          (fun p => (trimSpace (strL "```") :: p.1, p.2))) ∧
    (mdCodeFenceEnd 4 (trimSpace (strL "js````end")) = true ∧
      scanBlock 4 (strL "js````end" :: [strL "x"]) = some ([], [strL "x"])) :=
  ⟨(C7_closing_fence_rule 4 (strL "```") [strL "````"]).1 (by decide),
   (C7_closing_fence_rule 4 (strL "js````end") [strL "x"]).2 (strL "js") (strL "````")
     (strL "end") (by decide) (by decide) (by decide) (by decide) (by decide)⟩

/-! ### Lemmas for the registry-URL substitution (C8) -/

/-- A string with no slash immediately followed by a `\S` character can never
host the final `/\S+` part of a match. -/
def noEligPair (z : List Char) : Prop :=
  ∀ x c y, z = x ++ '/' :: c :: y → goNonSpace c = false

theorem noEligPair_of_append (u w : List Char) (h : noEligPair (u ++ w)) : noEligPair w := by
  intro x c y heq
  exact h (u ++ x) c y (by rw [heq, List.append_assoc])

theorem noEligPair_append_left (u w : List Char) (hu : ∀ c ∈ u, ¬ c = '/')
    (hw : noEligPair w) : noEligPair (u ++ w) := by
  induction u with
  | nil => simpa using hw
  | cons a utail ih =>
    intro x c y heq
    cases x with
    | nil =>
      simp only [List.nil_append, List.cons_append, List.cons.injEq] at heq
      exact absurd heq.1 (hu a (by simp))
    | cons x0 xtail =>
      simp only [List.cons_append, List.cons.injEq] at heq
      exact ih (fun d hd => hu d (by simp [hd])) xtail c y heq.2

theorem dropWhile_head_not {α : Type} (p : α → Bool) :
    ∀ (l : List α) (c : α) (rest : List α), List.dropWhile p l = c :: rest → p c = false := by
  intro l
  induction l with
  | nil => intro c rest h; simp at h
  | cons a atail ih =>
    intro c rest h
    by_cases hp : p a
    · rw [List.dropWhile_cons_of_pos hp] at h
      exact ih c rest h
    · rw [List.dropWhile_cons_of_neg hp] at h
      cases h
      simpa using hp

theorem takeWhile_dropWhile_self {α : Type} (p : α → Bool) (l : List α) :
    (l.dropWhile p).takeWhile p = [] := by
  cases hd : l.dropWhile p with
  | nil => rfl
  | cons c rest =>
    rw [List.takeWhile_cons_of_neg]
    simp [dropWhile_head_not p l c rest hd]

theorem dropWhile_eq_self_of_takeWhile_nil {α : Type} (p : α → Bool) (l : List α)
    (h : l.takeWhile p = []) : l.dropWhile p = l := by
  cases l with
  | nil => rfl
  | cons c rest =>
    by_cases hp : p c
    · rw [List.takeWhile_cons_of_pos hp] at h
      simp at h
    · rw [List.dropWhile_cons_of_neg hp]

/-- If `findComp` fails on a newline-free string, that string has no eligible
slash at any position beyond the first character. -/
theorem findComp_none_noElig :
    ∀ z, (∀ c ∈ z, ¬ c = '\n') → findComp z = none →
      ∀ x c y, z = x ++ '/' :: c :: y → x ≠ [] → goNonSpace c = false := by
  intro z
  induction z with
  | nil =>
    intro _ _ x c y heq hx
    cases x with
    | nil => exact absurd rfl hx
    | cons a t => simp at heq
  | cons z0 rest ih =>
    intro hnl h x c y heq hx
    have hz0 : ¬ z0 = '\n' := hnl z0 (by simp)
    simp only [findComp, if_neg hz0] at h
    have hrest : findComp rest = none := by
      cases hfr : findComp rest with
      | none => rfl
      | some p =>
        obtain ⟨a', b'⟩ := p
        simp only [hfr] at h
        simp at h
    simp only [hrest] at h
    cases x with
    | nil => exact absurd rfl hx
    | cons x0 xtail =>
      simp only [List.cons_append, List.cons.injEq] at heq
      obtain ⟨hx0, hrest_eq⟩ := heq
      cases xtail with
      | nil =>
        simp only [List.nil_append] at hrest_eq
        by_cases he : eligHead rest = true
        · simp [he] at h
        · rw [hrest_eq] at he
          simp only [eligHead, Bool.and_eq_true, decide_eq_true_eq] at he
          simpa using he
      | cons x1 xtail2 =>
        exact ih (fun d hd => hnl d (by simp [hd])) hrest (x1 :: xtail2) c y
          hrest_eq (by simp)

/-- Conversely, a string with no eligible slash beyond its first character
makes `findComp` fail. -/
theorem findComp_none_of_noEligPos :
    ∀ z, (∀ x c y, z = x ++ '/' :: c :: y → x ≠ [] → goNonSpace c = false) →
      findComp z = none := by
  intro z
  induction z with
  | nil => intro _; rfl
  | cons z0 rest ih =>
    intro h
    by_cases hz0 : z0 = '\n'
    · simp [findComp, hz0]
    · have hrest : findComp rest = none := by
        apply ih
        intro x c y heq hx
        exact h (z0 :: x) c y (by simp [heq]) (by simp)
      have he : eligHead rest = false := by
        cases rest with
        | nil => rfl
        | cons r0 rtail =>
          cases rtail with
          | nil => rfl
          | cons r1 rtail2 =>
            simp only [eligHead, Bool.and_eq_false_iff, decide_eq_false_iff_not]
            by_cases hr0 : r0 = '/'
            · subst hr0
              right
              exact Bool.not_eq_true _ ▸ (by simp [h [z0] r1 rtail2 rfl (by simp)])
            · left
              exact hr0
      simp [findComp, hz0, hrest, he]

/-- On newline-free input, the remainder component of a successful `findComp`
has no eligible slash pair at all. -/
theorem findComp_some_noElig :
    ∀ z a b, (∀ c ∈ z, ¬ c = '\n') → findComp z = some (a, b) → noEligPair b := by
  intro z
  induction z with
  | nil => intro a b _ h; simp [findComp] at h
  | cons c rest ih =>
    intro a b hnl h
    by_cases hc : c = '\n'
    · simp [findComp, hc] at h
    · simp only [findComp, if_neg hc] at h
      cases hfc : findComp rest with
      | some p =>
        obtain ⟨a', b'⟩ := p
        simp only [hfc] at h
        simp at h
        obtain ⟨h1, h2⟩ := h
        subst h2
        exact ih a' b' (fun d hd => hnl d (by simp [hd])) hfc
      | none =>
        simp only [hfc] at h
        by_cases he : eligHead rest = true
        · simp only [he, if_true] at h
          simp at h
          obtain ⟨h1, h2⟩ := h
          intro x cc y heq
          cases rest with
          | nil => simp [eligHead] at he
          | cons r0 rtail =>
            simp only [List.tail_cons] at h2
            exact findComp_none_noElig (r0 :: rtail)
              (fun d hd => hnl d (by simp [hd])) hfc (r0 :: x) cc y
              (by rw [h2, heq]; rfl) (by simp)
        · simp [he] at h

/-- Structure of a successful match: the string is the match followed by the
remainder; the match contains an eligible slash after a nonempty prefix; the
remainder (on newline-free input) has no eligible pair at all and starts with
a space if nonempty. -/
theorem matchFrom_some_parts (s m rem : List Char) (hnl : ∀ c ∈ s, ¬ c = '\n')
    (h : matchFrom s = some (m, rem)) :
    s = m ++ rem ∧
    (∃ mpre b0 brest, m = mpre ++ '/' :: b0 :: brest ∧ mpre ≠ [] ∧ goNonSpace b0 = true) ∧
    noEligPair rem ∧ rem.takeWhile goNonSpace = [] := by
  simp only [matchFrom] at h
  split at h
  · next hA =>
    cases hfc : findComp (s.drop 7) with
    | none => simp [hfc] at h
    | some p =>
      obtain ⟨a, b⟩ := p
      simp only [hfc] at h
      simp at h
      obtain ⟨hm, hrem⟩ := h
      obtain ⟨hr, hane, b0, bs, hb, hb0⟩ := findComp_eq _ _ _ hfc
      have hnl7 : ∀ c ∈ s.drop 7, ¬ c = '\n' := fun c hc => hnl c (List.mem_of_mem_drop hc)
      have hbelig : noEligPair b := findComp_some_noElig _ _ _ hnl7 hfc
      refine ⟨?_, ?_, ?_, ?_⟩
      · rw [← hm, ← hrem]
        calc s = s.take 7 ++ s.drop 7 := (List.take_append_drop 7 s).symm
          _ = s.take 7 ++ (a ++ '/' :: b) := by rw [hr]
          _ = s.take 7 ++ (a ++ '/' ::
              (b.takeWhile goNonSpace ++ b.dropWhile goNonSpace)) := by
              rw [List.takeWhile_append_dropWhile]
          _ = (s.take 7 ++ (a ++ '/' :: b.takeWhile goNonSpace)) ++
              b.dropWhile goNonSpace := by simp
      · refine ⟨s.take 7 ++ a, b0, bs.takeWhile goNonSpace, ?_, ?_, hb0⟩
        · rw [← hm, hb]
          rw [List.takeWhile_cons_of_pos hb0]
          simp
        · simp [hane]
      · rw [← hrem]
        have hsplit : b = b.takeWhile goNonSpace ++ b.dropWhile goNonSpace :=
          (List.takeWhile_append_dropWhile _ _).symm
        exact noEligPair_of_append _ _ (hsplit ▸ hbelig)
      · rw [← hrem]
        exact takeWhile_dropWhile_self goNonSpace b
  · simp at h

/-- On a pair-free string no match attempt succeeds. -/
theorem matchFrom_none_of_noElig (z : List Char) (h : noEligPair z) :
    matchFrom z = none := by
  unfold matchFrom
  by_cases hA : isAnchor z = true
  · rw [if_pos hA]
    have hfc : findComp (z.drop 7) = none := by
      apply findComp_none_of_noEligPos
      intro x c y heq _
      refine h (z.take 7 ++ x) c y ?_
      rw [List.append_assoc, ← heq]
      exact (List.take_append_drop 7 z).symm
    rw [hfc]
  · rw [if_neg hA]

/-- Pair-freedom is preserved by dropping a head character. -/
theorem noEligPair_tail (c : Char) (z : List Char) (h : noEligPair (c :: z)) :
    noEligPair z :=
  noEligPair_of_append [c] z h

/-- The replacement loop leaves a pair-free string untouched. -/
theorem replaceAllF_id_of_noElig :
    ∀ fuel z url, z.length < fuel → noEligPair z → replaceAllGCRF fuel z url = z := by
  intro fuel
  induction fuel with
  | zero => intro z url h _; omega
  | succ fuel ih =>
    intro z url hlen hz
    cases z with
    | nil => rfl
    | cons c rest =>
      simp only [replaceAllGCRF]
      rw [matchFrom_none_of_noElig (c :: rest) hz]
      simp only [List.length_cons] at hlen
      rw [ih rest url (by omega) (noEligPair_tail c rest hz)]

theorem findComp_cons (c : Char) (rest : List Char) :
    findComp (c :: rest) =
      if c = '\n' then none
      else
        match findComp rest with
        | some (a, b) => some (c :: a, b)
        | none => if eligHead rest then some ([c], rest.tail) else none := rfl

/-- `findComp` on `A ++ '/' :: z` finds exactly the displayed slash when `A`
is nonempty and newline-free and `z` starts with a `\S` character but
contains no eligible pair. -/
theorem findComp_concat :
    ∀ A z0 zs, A ≠ [] → (∀ c ∈ A, ¬ c = '\n') → goNonSpace z0 = true →
      noEligPair (z0 :: zs) →
      findComp (A ++ '/' :: z0 :: zs) = some (A, z0 :: zs) := by
  intro A
  induction A with
  | nil => intro z0 zs hne _ _ _; exact absurd rfl hne
  | cons a0 A' ih =>
    intro z0 zs _ hnl hz0 hnoelig
    by_cases hA' : A' = []
    · subst hA'
      have hfc : findComp ('/' :: z0 :: zs) = none := by
        apply findComp_none_of_noEligPos
        intro x c y heq hx
        cases x with
        | nil => exact absurd rfl hx
        | cons x0 xtail =>
          simp only [List.cons_append, List.cons.injEq] at heq
          exact hnoelig xtail c y heq.2
      have he : eligHead ('/' :: z0 :: zs) = true := by
        simp [eligHead, hz0]
      simp only [List.cons_append, List.nil_append]
      rw [findComp_cons, if_neg (hnl a0 (by simp)), hfc]
      simp [he]
    · have hrec := ih z0 zs hA' (fun c hc => hnl c (by simp [hc])) hz0 hnoelig
      simp only [List.cons_append]
      rw [findComp_cons, if_neg (hnl a0 (by simp))]
      rw [hrec]

/-- A whole well-shaped registry URL placed before a pair-free remainder is
matched exactly, leaving the remainder untouched. -/
theorem matchFrom_url (A B rem : List Char)
    (hA : A ≠ []) (hAok : ∀ c ∈ A, goNonSpace c = true ∧ ¬ c = '/')
    (hB : B ≠ []) (hBok : ∀ c ∈ B, goNonSpace c = true ∧ ¬ c = '/')
    (hrem1 : noEligPair rem) (hrem2 : rem.takeWhile goNonSpace = []) :
    matchFrom (('g' :: 'c' :: 'r' :: '.' :: 'i' :: 'o' :: '/' :: (A ++ '/' :: B)) ++ rem) =
      some ('g' :: 'c' :: 'r' :: '.' :: 'i' :: 'o' :: '/' :: (A ++ '/' :: B), rem) := by
  obtain ⟨B0, Bs, hBsplit⟩ : ∃ B0 Bs, B = B0 :: Bs := by
    cases B with
    | nil => exact absurd rfl hB
    | cons B0 Bs => exact ⟨B0, Bs, rfl⟩
  subst hBsplit
  have hnlA : ∀ c ∈ A, ¬ c = '\n' := by
    intro c hc
    have := (hAok c hc).1
    intro he
    subst he
    simp [goNonSpace, regexSpace] at this
  have hBrem_noelig : noEligPair ((B0 :: Bs) ++ rem) :=
    noEligPair_append_left _ _ (fun c hc => (hBok c hc).2) hrem1
  have hfc : findComp (A ++ '/' :: ((B0 :: Bs) ++ rem)) =
      some (A, (B0 :: Bs) ++ rem) := by
    have := findComp_concat A B0 (Bs ++ rem) hA hnlA (hBok B0 (by simp)).1
      (by
        intro x c y heq
        exact hBrem_noelig x c y (by simpa using heq))
    simpa using this
  have htw : ((B0 :: Bs) ++ rem).takeWhile goNonSpace = B0 :: Bs := by
    rw [takeWhile_append_all goNonSpace (B0 :: Bs) rem (fun c hc => (hBok c hc).1), hrem2]
    simp
  have hdw : ((B0 :: Bs) ++ rem).dropWhile goNonSpace = rem := by
    rw [dropWhile_append_all goNonSpace (B0 :: Bs) rem (fun c hc => (hBok c hc).1)]
    exact dropWhile_eq_self_of_takeWhile_nil goNonSpace rem hrem2
  simp only [matchFrom, List.cons_append]
  have hanch : isAnchor ('g' :: 'c' :: 'r' :: '.' :: 'i' :: 'o' :: '/' ::
      ((A ++ '/' :: (B0 :: Bs)) ++ rem)) = true := by
    simp [isAnchor]
  rw [if_pos hanch]
  have hdrop : (('g' :: 'c' :: 'r' :: '.' :: 'i' :: 'o' :: '/' ::
      ((A ++ '/' :: (B0 :: Bs)) ++ rem)) : List Char).drop 7 =
      A ++ '/' :: ((B0 :: Bs) ++ rem) := by
    simp
  rw [hdrop, hfc]
  simp only [htw, hdw]
  simp

/-- Replacement scan pushed through a prefix in which no match can start. -/
theorem replaceAllF_push (url rem : List Char) :
    ∀ fuel pre, pre.length + url.length + rem.length < fuel →
      (∀ x y, pre = x ++ y → y ≠ [] → matchFrom (y ++ url ++ rem) = none) →
      matchFrom (url ++ rem) = some (url, rem) →
      noEligPair rem →
      replaceAllGCRF fuel (pre ++ url ++ rem) url = pre ++ url ++ rem := by
  intro fuel
  induction fuel with
  | zero => intro pre h _ _ _; omega
  | succ fuel ih =>
    intro pre hlen hnm hurl hrem
    cases pre with
    | nil =>
      simp only [List.nil_append]
      have hlt := matchFrom_rem_lt _ _ _ hurl
      cases hu : url ++ rem with
      | nil => rfl
      | cons c rest =>
        rw [hu] at hurl
        simp only [replaceAllGCRF]
        simp only [hurl]
        rw [replaceAllF_id_of_noElig fuel rem url ?_ hrem]
        · exact hu
        · have h1 : (url ++ rem).length = url.length + rem.length := by simp
          rw [hu] at h1 hlt
          simp only [List.length_cons, List.length_nil] at h1 hlt hlen
          omega
    | cons p0 ptail =>
      simp only [List.cons_append]
      simp only [replaceAllGCRF]
      have hm0 : matchFrom (p0 :: (ptail ++ url ++ rem)) = none := by
        have := hnm [] (p0 :: ptail) rfl (by simp)
        simpa using this
      rw [hm0]
      have hstep := ih ptail
        (by simp only [List.length_cons] at hlen; omega)
        (fun x y hxy hy => hnm (p0 :: x) y (by simp [hxy]) hy) hurl hrem
      rw [hstep]

/-- When the old string (prefix, match, remainder) admits no match starting at
its head, neither does the new string in which the match has been replaced by
a well-shaped registry URL. -/
theorem no_new_match_head (A B : List Char) (c : Char) (pre2 m rem : List Char)
    (hnl : ∀ x ∈ c :: (pre2 ++ m ++ rem), ¬ x = '\n')
    (hmst : ∃ mpre b0 brest, m = mpre ++ '/' :: b0 :: brest ∧ mpre ≠ [] ∧
      goNonSpace b0 = true)
    (hold : matchFrom (c :: (pre2 ++ m ++ rem)) = none) :
    matchFrom ((c :: pre2) ++
      ('g' :: 'c' :: 'r' :: '.' :: 'i' :: 'o' :: '/' :: (A ++ '/' :: B)) ++ rem) = none := by
  obtain ⟨mpre, b0, brest, hm, hmpre, hb0⟩ := hmst
  have hneg : ¬ isAnchor ((c :: pre2) ++
      ('g' :: 'c' :: 'r' :: '.' :: 'i' :: 'o' :: '/' :: (A ++ '/' :: B)) ++ rem) = true := ?_
  · unfold matchFrom
    rw [if_neg hneg]
  intro hanew
  match pre2, hanew with
  | p0 :: p1 :: p2 :: p3 :: p4 :: p5 :: prest, hanew =>
    have ha_old : isAnchor (c :: (p0 :: p1 :: p2 :: p3 :: p4 :: p5 :: prest) ++ m ++ rem)
        = true := by
      simp only [isAnchor, List.cons_append] at hanew ⊢
      exact hanew
    have hold2 := hold
    simp only [matchFrom, List.cons_append] at hold2
    rw [if_pos ?_] at hold2
    · have hfc : findComp ((c :: p0 :: p1 :: p2 :: p3 :: p4 :: p5 :: prest ++ m ++
          rem : List Char).drop 7) = none := by
        cases hfc2 : findComp ((c :: p0 :: p1 :: p2 :: p3 :: p4 :: p5 :: prest ++ m ++
            rem : List Char).drop 7) with
        | none => rfl
        | some p =>
          obtain ⟨pa, pb⟩ := p
          simp only [List.cons_append] at hfc2
          rw [hfc2] at hold2
          simp at hold2
      have hdrop : ((c :: p0 :: p1 :: p2 :: p3 :: p4 :: p5 :: prest ++ m ++
          rem : List Char)).drop 7 = prest ++ m ++ rem := by
        simp
      rw [hdrop] at hfc
      have hpair : prest ++ m ++ rem = (prest ++ mpre) ++ '/' :: b0 :: (brest ++ rem) := by
        rw [hm]
        simp
      have := findComp_none_noElig (prest ++ m ++ rem)
        (fun d hd => hnl d (by
          simp only [List.mem_cons, List.mem_append] at hd ⊢
          rcases hd with (hd | hd) | hd
          · right; left; left; simp [hd]
          · right; left; right; exact hd
          · right; right; exact hd)) hfc
        (prest ++ mpre) b0 (brest ++ rem) hpair (by simp [hmpre])
      rw [this] at hb0
      exact Bool.false_ne_true hb0
    · simpa using ha_old
  | [], hanew => simp [isAnchor, List.cons_append] at hanew
  | [p0], hanew => simp [isAnchor, List.cons_append] at hanew
  | [p0, p1], hanew => simp [isAnchor, List.cons_append] at hanew
  | [p0, p1, p2], hanew => simp [isAnchor, List.cons_append] at hanew
  | [p0, p1, p2, p3], hanew => simp [isAnchor, List.cons_append] at hanew
  | [p0, p1, p2, p3, p4], hanew => simp [isAnchor, List.cons_append] at hanew

/-- Structure of one full replacement pass with a well-shaped registry URL:
either the line is returned unchanged, or the scan performed exactly one
replacement, and the result decomposes as an unmodified prefix, the inserted
URL and an unmodified remainder in which no further match can start. -/
theorem replaceAll_structure (A B url : List Char)
    (hurl : url = 'g' :: 'c' :: 'r' :: '.' :: 'i' :: 'o' :: '/' :: (A ++ '/' :: B)) :
    ∀ fuel s, s.length < fuel → (∀ c ∈ s, ¬ c = '\n') →
      replaceAllGCRF fuel s url = s ∨
      ∃ pre m rem, s = pre ++ m ++ rem ∧
        (∃ mpre b0 brest, m = mpre ++ '/' :: b0 :: brest ∧ mpre ≠ [] ∧
          goNonSpace b0 = true) ∧
        noEligPair rem ∧ rem.takeWhile goNonSpace = [] ∧
        (∀ x y, pre = x ++ y → y ≠ [] → matchFrom (y ++ url ++ rem) = none) ∧
        replaceAllGCRF fuel s url = pre ++ url ++ rem := by
  intro fuel
  induction fuel with
  | zero => intro s hlen _; omega
  | succ fuel ih =>
    intro s hlen hnl
    cases s with
    | nil => left; rfl
    | cons c rest =>
      cases hm : matchFrom (c :: rest) with
      | some p =>
        obtain ⟨m, rem⟩ := p
        obtain ⟨hs, hmst, hne, htw⟩ := matchFrom_some_parts (c :: rest) m rem hnl hm
        right
        refine ⟨[], m, rem, by simpa using hs, hmst, hne, htw, ?_, ?_⟩
        · intro x y hxy hy
          rcases List.append_eq_nil.mp hxy.symm with ⟨_, h2⟩
          exact absurd h2 hy
        · simp only [replaceAllGCRF, hm]
          have hremlt : rem.length < fuel := by
            have := matchFrom_rem_lt _ _ _ hm
            simp only [List.length_cons] at hlen this
            omega
          rw [replaceAllF_id_of_noElig fuel rem url hremlt hne]
          simp
      | none =>
        have hrlen : rest.length < fuel := by
          simp only [List.length_cons] at hlen
          omega
        have hrnl : ∀ d ∈ rest, ¬ d = '\n' := fun d hd => hnl d (by simp [hd])
        rcases ih rest hrlen hrnl with hid |
          ⟨pre, m, rem, hsplit, hmst, hne, htw, hnomatch, hres⟩
        · left
          simp only [replaceAllGCRF, hm]
          rw [hid]
        · right
          refine ⟨c :: pre, m, rem, by simp [hsplit], hmst, hne, htw, ?_, ?_⟩
          · intro x y hxy hy
            cases x with
            | nil =>
              simp only [List.nil_append] at hxy
              subst hxy
              rw [hurl]
              apply no_new_match_head A B c pre m rem ?_ hmst ?_
              · intro d hd
                apply hnl
                simp only [hsplit, List.mem_cons]
                simpa using hd
              · rw [← hsplit]
                exact hm
            | cons x0 xt =>
              simp only [List.cons_append, List.cons.injEq] at hxy
              exact hnomatch xt y hxy.2 hy
          · simp only [replaceAllGCRF, hm]
            rw [hres]
            simp

/-- C8 counterexample: for an arbitrary replacement string the registry-URL
substitution is not idempotent.  On the line "agcrgcr.io/a/b" with replacement
"zio/p/t", the first pass yields "agcrzio/p/t", in which a fresh match
"gcrzio/p/t" has been created; the second pass therefore changes the line
again, to "azio/p/t". -/
theorem C8_counterexample_not_idempotent :
    replaceAllGCR (strL "agcrgcr.io/a/b") (strL "zio/p/t") = strL "agcrzio/p/t" ∧
    replaceAllGCR (strL "agcrzio/p/t") (strL "zio/p/t") = strL "azio/p/t" ∧
    replaceAllGCR (replaceAllGCR (strL "agcrgcr.io/a/b") (strL "zio/p/t"))
        (strL "zio/p/t") ≠
      replaceAllGCR (strL "agcrgcr.io/a/b") (strL "zio/p/t") := by
  have h1 : replaceAllGCR (strL "agcrgcr.io/a/b") (strL "zio/p/t") =
      strL "agcrzio/p/t" := rfl
  have h2 : replaceAllGCR (strL "agcrzio/p/t") (strL "zio/p/t") =
      strL "azio/p/t" := rfl
  refine ⟨h1, h2, ?_⟩
  rw [h1, h2]
  decide

/-- C8 (amended): for every newline-free input line and a replacement URL of
the well-shaped registry form gcr.io/A/B — with A and B nonempty and free of
whitespace and slashes, as every URL built by the sample tester is — applying
the registry-URL substitution a second time to the once-substituted line
produces no further change.  (For arbitrary replacement strings the claim
fails; see the counterexample.) -/
theorem C8_amended_idempotent_for_wellformed_url
    (line A B url : List Char)
    (hurl : url = 'g' :: 'c' :: 'r' :: '.' :: 'i' :: 'o' :: '/' :: (A ++ '/' :: B))
    (hA : A ≠ []) (hAok : ∀ c ∈ A, goNonSpace c = true ∧ ¬ c = '/')
    (hB : B ≠ []) (hBok : ∀ c ∈ B, goNonSpace c = true ∧ ¬ c = '/')
    (hnl : ∀ c ∈ line, ¬ c = '\n') :
    replaceAllGCR (replaceAllGCR line url) url = replaceAllGCR line url := by
  subst hurl
  rcases replaceAll_structure A B _ rfl (line.length + 1) line (by omega) hnl with hid |
    ⟨pre, m, rem, hsplit, hmst, hne, htw, hnomatch, hres⟩
  · have hid2 : replaceAllGCR line
        ('g' :: 'c' :: 'r' :: '.' :: 'i' :: 'o' :: '/' :: (A ++ '/' :: B)) = line := by
      unfold replaceAllGCR
      exact hid
    rw [hid2]
    exact hid2
  · have hres2 : replaceAllGCR line
        ('g' :: 'c' :: 'r' :: '.' :: 'i' :: 'o' :: '/' :: (A ++ '/' :: B)) =
        pre ++ ('g' :: 'c' :: 'r' :: '.' :: 'i' :: 'o' :: '/' :: (A ++ '/' :: B)) ++ rem := by
      unfold replaceAllGCR
      exact hres
    rw [hres2]
    unfold replaceAllGCR
    apply replaceAllF_push _ rem _ pre ?_ hnomatch ?_ hne
    · simp only [List.length_append]
      omega
    · exact matchFrom_url A B rem hA hAok hB hBok hne htw

/-- Witness for the amended C8 on a concrete line and well-shaped URL. -/
theorem C8_amended_idempotent_for_wellformed_url_witness :
    replaceAllGCR (replaceAllGCR (strL "gcloud builds submit --tag=gcr.io/hello/world")
        (strL "gcr.io/p/t")) (strL "gcr.io/p/t") =
      replaceAllGCR (strL "gcloud builds submit --tag=gcr.io/hello/world")
        (strL "gcr.io/p/t") :=
  C8_amended_idempotent_for_wellformed_url
    (strL "gcloud builds submit --tag=gcr.io/hello/world") ['p'] ['t']
    (strL "gcr.io/p/t") (by decide) (by decide) (by decide) (by decide) (by decide)
    (by decide)

end SST
